import Mathlib

/-!
# Diablo 2 loot filter hints: the context classifier of `src/extension/main.js`

The extension classifies the text in front of the cursor with a handful of
JavaScript regular expressions and resolves `Alias[name]: value` bindings with
a regular expression built at run time.  This development embeds

* the fragment of JavaScript regular expressions the source uses, as a
  backtracking matcher that lists its results in the priority order of the
  language (greedy quantifiers first),
* `String.prototype.match` without the `g` flag, `replace` with the `g` flag,
  `indexOf`, `substring(0, i)`, `trim`, and the reading of a pattern string by
  `new RegExp`,
* the functions of `main.js` themselves, including both providers.

Texts are sequences of characters.  None of the patterns of the source uses the
`u` flag and none of them mentions a character outside the Basic Multilingual
Plane, so a character outside it behaves as any other character that is
neither a space, a word character nor a line terminator.
-/

namespace D2LootFilter

/-! ## Characters -/

/-- Line terminators of ECMAScript: LF, CR, LS, PS. -/
def isLineTerminator (c : Char) : Bool :=
  c.toNat == 0x0A || c.toNat == 0x0D || c.toNat == 0x2028 || c.toNat == 0x2029

/-- White space of ECMAScript: TAB, VT, FF, ZWNBSP and the space separators. -/
def isWhiteSpace (c : Char) : Bool :=
  c.toNat == 0x09 || c.toNat == 0x0B || c.toNat == 0x0C || c.toNat == 0x20 ||
  c.toNat == 0xA0 || c.toNat == 0x1680 || (0x2000 ≤ c.toNat && c.toNat ≤ 0x200A) ||
  c.toNat == 0x202F || c.toNat == 0x205F || c.toNat == 0x3000 || c.toNat == 0xFEFF

/-- The class `\s`, which is also what `trim` removes: white space and line terminators. -/
def isSpace (c : Char) : Bool :=
  isWhiteSpace c || isLineTerminator c

/-- The class `\w`: `[A-Za-z0-9_]`. -/
def isWordChar (c : Char) : Bool :=
  ('a'.toNat ≤ c.toNat && c.toNat ≤ 'z'.toNat) || ('A'.toNat ≤ c.toNat && c.toNat ≤ 'Z'.toNat) ||
  ('0'.toNat ≤ c.toNat && c.toNat ≤ '9'.toNat) || c == '_'

/-- An ASCII letter, `A` to `Z` or `a` to `z`. -/
def isAsciiLetter (c : Char) : Bool :=
  ('A'.toNat ≤ c.toNat && c.toNat ≤ 'Z'.toNat) || ('a'.toNat ≤ c.toNat && c.toNat ≤ 'z'.toNat)

/-- A character of a keyword: an uppercase ASCII letter, a digit, an underscore or a
hyphen. -/
def isKeywordChar (c : Char) : Bool :=
  ('A'.toNat ≤ c.toNat && c.toNat ≤ 'Z'.toNat) || ('0'.toNat ≤ c.toNat && c.toNat ≤ '9'.toNat) ||
  c == '_' || c == '-'

/-- One atom of a pattern that consumes a single character. -/
inductive CharSet where
  /-- A pattern character, or an escaped syntax character such as `\[`. -/
  | char (c : Char)
  /-- The atom `.` (no `s` flag): any character but a line terminator. -/
  | dot
  /-- The escape `\s`. -/
  | space
  /-- The escape `\w`. -/
  | word
  /-- A class `[...]` (`negated = false`) or `[^...]` (`negated = true`) given by its
  ranges; a single member `c` is the range `(c, c)`. -/
  | cls (negated : Bool) (ranges : List (Char × Char))
  deriving DecidableEq, Repr

/-- Does the character belong to the set? -/
def CharSet.test : CharSet → Char → Bool
  | .char d, c => c == d
  | .dot, c => !isLineTerminator c
  | .space, c => isSpace c
  | .word, c => isWordChar c
  | .cls negated ranges, c =>
      (ranges.any fun r => r.1.toNat ≤ c.toNat && c.toNat ≤ r.2.toNat) != negated

/-! ## Patterns and the backtracking matcher -/

/-- The fragment of regular expressions used by `main.js`. -/
inductive Re where
  /-- The empty pattern. -/
  | empty
  /-- The assertion `^`. -/
  | bol
  /-- The assertion `$`. -/
  | eol
  /-- One character of a set. -/
  | set (cs : CharSet)
  /-- Concatenation. -/
  | seq (a b : Re)
  /-- Greedy `a*`. -/
  | star (a : Re)
  /-- Greedy `a+`. -/
  | plus (a : Re)
  /-- Capturing group number `n`. -/
  | group (n : Nat) (a : Re)
  deriving DecidableEq, Repr

/-- Concatenation of a list of terms. -/
def Re.cat : List Re → Re
  | [] => .empty
  | r :: rs => .seq r (Re.cat rs)

/-- The terms matching the characters of `cs` one after the other. -/
def Re.chars (cs : List Char) : List Re :=
  cs.map fun c => Re.set (.char c)

/-- A state of the matcher: the input already passed (latest character first), the
input still ahead, and the captures recorded so far (latest first). -/
structure MState where
  before : List Char
  after : List Char
  caps : List (Nat × List Char)
  deriving DecidableEq, Repr

/-- Where `^` holds: at the start of the input, and with the `m` flag also right
after a line terminator. -/
def MState.atLineStart (multiline : Bool) (s : MState) : Bool :=
  match s.before with
  | [] => true
  | c :: _ => multiline && isLineTerminator c

/-- Where `$` holds: at the end of the input, and with the `m` flag also right
before a line terminator. -/
def MState.atLineEnd (multiline : Bool) (s : MState) : Bool :=
  match s.after with
  | [] => true
  | c :: _ => multiline && isLineTerminator c

/-- The greedy repetition of a matcher `f`: first every way of doing one more round
that consumed something (a round that matched the empty string is rejected, as in
`RepeatMatcher`), each followed by further rounds, and last of all stopping here.
`fuel` bounds the number of rounds; the input ahead is a sufficient bound since a
round that counts consumes a character. -/
def starLoop (f : MState → List MState) : Nat → MState → List MState
  | 0, s => [s]
  | fuel + 1, s =>
      ((f s).filter fun s' => s'.after.length != s.after.length).flatMap (starLoop f fuel) ++ [s]

/-- All the ways the pattern matches from a state, in the order in which a
backtracking matcher tries them. -/
def Re.run (multiline : Bool) : Re → MState → List MState
  | .empty, s => [s]
  | .bol, s => if s.atLineStart multiline then [s] else []
  | .eol, s => if s.atLineEnd multiline then [s] else []
  | .set cs, s =>
      match s.after with
      | [] => []
      | c :: rest => if cs.test c then [{ s with before := c :: s.before, after := rest }] else []
  | .seq a b, s => (Re.run multiline a s).flatMap fun s' => Re.run multiline b s'
  | .star a, s => starLoop (fun s' => Re.run multiline a s') s.after.length s
  | .plus a, s =>
      (Re.run multiline a s).flatMap fun s1 =>
        starLoop (fun s' => Re.run multiline a s') s1.after.length s1
  | .group n a, s =>
      (Re.run multiline a s).map fun s' =>
        { s' with caps := (n, s.after.take (s.after.length - s'.after.length)) :: s'.caps }

/-- A regular expression object: its pattern and its `m` flag. -/
structure RegExp where
  pattern : Re
  multiline : Bool
  deriving DecidableEq, Repr

/-- The match array of a successful match. -/
structure Match where
  /-- The property `index`. -/
  index : Nat
  /-- Element 0: the matched text. -/
  matched : List Char
  /-- The captures recorded by the groups that took part. -/
  caps : List (Nat × List Char)
  deriving DecidableEq, Repr

/-- Element `n ≥ 1` of the match array; `none` is `undefined`. -/
def Match.capture (m : Match) (n : Nat) : Option (List Char) :=
  m.caps.lookup n

/-- The search of `RegExpBuiltinExec` without `g` and `y`: try the pattern at the
current index and, when it fails there, one character further. -/
def execFrom (re : RegExp) : List Char → List Char → Option Match
  | before, [] =>
      match (re.pattern.run re.multiline ⟨before, [], []⟩).head? with
      | some s' => some ⟨before.length, [], s'.caps⟩
      | none => none
  | before, c :: rest =>
      match (re.pattern.run re.multiline ⟨before, c :: rest, []⟩).head? with
      | some s' =>
          some ⟨before.length,
            (c :: rest).take ((c :: rest).length - s'.after.length), s'.caps⟩
      | none => execFrom re (c :: before) rest

/-- The call `text.match(re)` for a regular expression without the `g` flag. -/
def jsMatch (text : String) (re : RegExp) : Option Match :=
  execFrom re [] text.data

/-! ## Reading a pattern string -/

/-- The syntax characters of a pattern: `. * + ? ^ $ { } ( ) | [ ] \`. -/
def isSyntaxChar (c : Char) : Bool :=
  c == '.' || c == '*' || c == '+' || c == '?' || c == '^' || c == '$' || c == '\x7b' ||
  c == '\x7d' || c == '(' || c == ')' || c == '|' || c == '[' || c == ']' || c == '\\'

/-- The ranges of a class from its members in order; a member comes with the flag
"is an unescaped hyphen".  `a-b` is a range, and a hyphen with nothing on one of its
sides stands for itself.  A range out of order is a syntax error. -/
def classRanges : List (Char × Bool) → Option (List (Char × Char))
  | [] => some []
  | (a, _) :: (_, true) :: (b, _) :: rest =>
      if a.toNat ≤ b.toNat then (classRanges rest).map fun rs => (a, b) :: rs else none
  | (a, _) :: rest => (classRanges rest).map fun rs => (a, a) :: rs

/-- The state of the reading of a pattern: the open groups (number, and the terms
in front of the group, latest first), the terms of the innermost open sequence
(latest first), the number of the next group, the members read so far when inside a
class (with its negation flag), and whether the character before was a backslash
that starts an escape. -/
structure ParseState where
  stack : List (Nat × List Re)
  cur : List Re
  nextGroup : Nat
  cls : Option (Bool × List (Char × Bool))
  esc : Bool
  deriving DecidableEq, Repr

/-- The reading of one character of a pattern.

Only what `main.js` needs is read: the assertions `^` and `$`, pattern characters,
`.`, the escapes `\s`, `\w` and backslash before a syntax character or `/`, classes
of characters and ranges (a `^` right after the opening bracket negates the class),
capturing groups, and `*` or `+` after a one-character atom.  Everything else (`|`,
`?`, braces, other escapes, a quantified group) gives `none`, as does a pattern that
JavaScript rejects. -/
def parseStep (st : ParseState) (c : Char) : Option ParseState :=
  match st.cls, st.esc with
  | some (negated, members), true =>
      if isSyntaxChar c || c == '/' || c == '-' then
        some { st with cls := some (negated, (c, false) :: members), esc := false }
      else none
  | some (negated, members), false =>
      if c = '^' ∧ negated = false ∧ members = [] then some { st with cls := some (true, []) }
      else if c = ']' then
        match classRanges members.reverse with
        | some ranges =>
            some { st with cur := .set (.cls negated ranges) :: st.cur, cls := none }
        | none => none
      else if c = '\\' then some { st with esc := true }
      else some { st with cls := some (negated, (c, c == '-') :: members) }
  | none, true =>
      if isSyntaxChar c || c == '/' then
        some { st with cur := .set (.char c) :: st.cur, esc := false }
      else if c = 's' then some { st with cur := .set .space :: st.cur, esc := false }
      else if c = 'w' then some { st with cur := .set .word :: st.cur, esc := false }
      else none
  | none, false =>
      if c = '\\' then some { st with esc := true }
      else if c = '^' then some { st with cur := .bol :: st.cur }
      else if c = '$' then some { st with cur := .eol :: st.cur }
      else if c = '.' then some { st with cur := .set .dot :: st.cur }
      else if c = '*' then
        match st.cur with
        | .set cs :: cur' => some { st with cur := .star (.set cs) :: cur' }
        | _ => none
      else if c = '+' then
        match st.cur with
        | .set cs :: cur' => some { st with cur := .plus (.set cs) :: cur' }
        | _ => none
      else if c = '(' then
        some { st with stack := (st.nextGroup, st.cur) :: st.stack, cur := [],
                       nextGroup := st.nextGroup + 1 }
      else if c = ')' then
        match st.stack with
        | (g, outer) :: stack' =>
            some { st with stack := stack', cur := .group g (Re.cat st.cur.reverse) :: outer }
        | [] => none
      else if c = '[' then some { st with cls := some (false, []) }
      else if c = '?' ∨ c = '\x7b' ∨ c = '\x7d' ∨ c = ']' ∨ c = '|' then none
      else some { st with cur := .set (.char c) :: st.cur }

/-- The reading of the characters of a pattern one after the other. -/
def parseLoop : List Char → ParseState → Option ParseState
  | [], st => some st
  | c :: rest, st =>
      match parseStep st c with
      | some st' => parseLoop rest st'
      | none => none

/-- The reading of a whole pattern: at its end no group, class or escape is open. -/
def parsePattern (pattern : List Char) : Option Re :=
  match parseLoop pattern ⟨[], [], 1, none, false⟩ with
  | some ⟨[], cur, _, none, false⟩ => some (Re.cat cur.reverse)
  | _ => none

/-- What a JavaScript call can throw here. -/
inductive JsError where
  /-- A pattern that `new RegExp` rejects, or one outside the fragment read by
  `parsePattern`. -/
  | syntaxError
  /-- A method called on `undefined`. -/
  | typeError
  deriving DecidableEq, Repr

deriving instance DecidableEq for Except

/-- The constructor `new RegExp(pattern, flags)` for the flags `""` and `"m"`. -/
def RegExp.create (pattern flags : String) : Except JsError RegExp :=
  if flags = "" ∨ flags = "m" then
    match parsePattern pattern.data with
    | some re => .ok ⟨re, flags = "m"⟩
    | none => .error .syntaxError
  else .error .syntaxError

/-- A regular expression literal `/pattern/` of the source (no flags).  The
patterns of the source are all read by `parsePattern`; the default is never used. -/
def RegExp.literal (pattern : String) : RegExp :=
  ⟨(parsePattern pattern.data).getD .empty, false⟩

/-! ## String methods -/

/-- The call `text.indexOf(pat)`; `none` stands for `-1`. -/
def indexOf (pat : List Char) : List Char → Option Nat
  | [] => if pat.isEmpty then some 0 else none
  | c :: rest =>
      if pat.isPrefixOf (c :: rest) then some 0 else (indexOf pat rest).map (· + 1)

/-- The call `text.trim()`: white space and line terminators are removed at both ends. -/
def trim (text : List Char) : List Char :=
  ((text.dropWhile isSpace).reverse.dropWhile isSpace).reverse

/-- The call `text.replace(re, replacement)` for a global `re`, from the index
reached so far: every match found from left to right is replaced, the search goes on
behind the match, and after an empty match one character further.  `skip` counts the
characters ahead that belong to the match just replaced; `repl` gives the
replacement of a matched text. -/
def replaceFrom (re : RegExp) (repl : List Char → List Char) :
    List Char → List Char → Nat → List Char
  | before, [], _ =>
      match (re.pattern.run re.multiline ⟨before, [], []⟩).head? with
      | some _ => repl []
      | none => []
  | before, c :: rest, 0 =>
      match (re.pattern.run re.multiline ⟨before, c :: rest, []⟩).head? with
      | some s' =>
          if (c :: rest).length - s'.after.length = 0 then
            repl [] ++ c :: replaceFrom re repl (c :: before) rest 0
          else
            repl ((c :: rest).take ((c :: rest).length - s'.after.length)) ++
              replaceFrom re repl (c :: before) rest ((c :: rest).length - s'.after.length - 1)
      | none => c :: replaceFrom re repl (c :: before) rest 0
  | before, c :: rest, skip + 1 => replaceFrom re repl (c :: before) rest skip

/-- What the escaping of `getAliasValue` makes of one character: a syntax character
gets a backslash in front. -/
def escapeChar (c : Char) : List Char :=
  if isSyntaxChar c then ['\\', c] else [c]

/-- The pattern that `new RegExp` reads from the string built in `getAliasValue`,
with the name standing for itself character by character (see `aliasPattern_parse`). -/
def aliasPattern (name : List Char) : Re :=
  Re.cat (.bol :: (Re.chars ("Alias[".data ++ name ++ "]:".data) ++
    [.star (.set .space), .group 1 (Re.cat [.star (.set .dot)]), .eol]))

/-- The cut of `getAliasValue` at the first `//`: `value.substring(0, commentIndex)`
when `indexOf` finds one, and the value itself otherwise. -/
def cutAtComment (value : List Char) : List Char :=
  match indexOf "//".data value with
  | some commentIndex => value.take commentIndex
  | none => value

/-- Does some line of the text begin with `p`?  `atStart` tells whether the text
starts a line; a line starts at the start of the text and after every line
terminator. -/
def someLineBeginsWith (p : List Char) : Bool → List Char → Bool
  | atStart, [] => atStart && p.isEmpty
  | atStart, c :: rest =>
      (atStart && p.isPrefixOf (c :: rest)) || someLineBeginsWith p (isLineTerminator c) rest

/-- The texts that follow `p` on the lines of the text that begin with `p`, in the
order of the lines.  `atStart` tells whether the text starts a line. -/
def bindingRests (p : List Char) : Bool → List Char → List (List Char)
  | atStart, [] => if atStart && p.isEmpty then [[]] else []
  | atStart, c :: rest =>
      (if atStart && p.isPrefixOf (c :: rest) then [(c :: rest).drop p.length] else []) ++
        bindingRests p (isLineTerminator c) rest

/-- What `getAliasValue` makes of the text that follows `Alias[name]:`: behind the
longest run of spaces, the characters up to the next line terminator, cut at the
first `//` and trimmed. -/
def aliasValueOf (rest : List Char) : String :=
  ⟨trim (cutAtComment ((rest.dropWhile isSpace).takeWhile (CharSet.test .dot)))⟩

/-- The part of a text up to its first line terminator. -/
def firstLine (text : List Char) : List Char :=
  text.takeWhile fun c => !isLineTerminator c

/-- An ASCII digit. -/
def isAsciiDigit (c : Char) : Bool :=
  '0'.toNat ≤ c.toNat && c.toNat ≤ '9'.toNat

/-! ## The host and the hint data

The editor host and `hintDataManager.js` are not part of `main.js`; they are
parameters of the providers. -/

/-- A position of the host: line and character. -/
structure Position where
  line : Nat
  character : Nat
  deriving DecidableEq, Repr

/-- A range of the host, from `start` to `stop` (the host calls the latter `end`). -/
structure Range where
  start : Position
  stop : Position
  deriving DecidableEq, Repr

/-- The document of the host, as far as `main.js` uses it.  `getText none` is the
call without a range, which gives the whole text. -/
structure TextDocument where
  getText : Option Range → String
  getWordRangeAtPosition : Position → Option Range
  languageId : String

/-- The module `hintDataManager`, over its own state `σ`, its completion lists `C`
and its hover items `H`; `none` is a `null` or `undefined` result. -/
structure HintDataManager (σ C H : Type) where
  init : σ → String → σ
  getCompletionConditionKeywords : σ → Option C
  getCompletionActionKeywords : σ → Option C
  getCompletionAllKeywords : σ → Option C
  getCompletionItems : σ → Option C
  getCompletionLineTypes : σ → Option C
  getConditionHoverItem : σ → String → Option H
  getActionHoverItem : σ → String → Option H

/-- What the hover provider hands to the host: the copy of a hover item of the hint
data, or a hover made of an alias value. -/
inductive HoverResult (H : Type) where
  | hint (item : H)
  | alias (value : String)
  deriving DecidableEq, Repr

/-! ## The functions of `main.js` -/

/-- The function `getTextAtCursor`: the text of the range from the position to one
character further on the same line. -/
def getTextAtCursor (document : TextDocument) (position : Position) : String :=
  document.getText (some ⟨position, ⟨position.line, position.character + 1⟩⟩)

/-- The function `getTextBeforeCursor`: the text from the start of the line to the
position. -/
def getTextBeforeCursor (document : TextDocument) (position : Position) : String :=
  document.getText (some ⟨⟨position.line, 0⟩, position⟩)

/-- The function `hasTextComment`; a match array is truthy and `none` is `null`. -/
def hasTextComment (text : String) : Option Match :=
  jsMatch text (RegExp.literal "\\/\\/")

/-- The function `isTextInCondition`. -/
def isTextInCondition (text : String) : Option Match :=
  jsMatch text (RegExp.literal "^ItemDisplay\\[[^\\]]*$")

/-- The function `isTextInAction`. -/
def isTextInAction (text : String) : Option Match :=
  jsMatch text (RegExp.literal "^ItemDisplay\\[[^\\]]*\\]:")

/-- The function `isTextInAliasName`. -/
def isTextInAliasName (text : String) : Option Match :=
  jsMatch text (RegExp.literal "^Alias\\[[^\\]]*$")

/-- The function `isTextInAliasContent`. -/
def isTextInAliasContent (text : String) : Option Match :=
  jsMatch text (RegExp.literal "^Alias\\[[^\\]]*\\]:")

/-- The function `isTextAtLineStart`: the first match, or else the second. -/
def isTextAtLineStart (text : String) : Option Match :=
  (jsMatch text (RegExp.literal "^\\s*$")).or (jsMatch text (RegExp.literal "^\\s*[A-Za-z]+$"))

/-- The function `isTextPossibleKeyword`. -/
def isTextPossibleKeyword (text : String) : Option Match :=
  jsMatch text (RegExp.literal "^[A-Z0-9_-]+$")

/-- The call `aliasName.replace(/[.*+?^${}()|[\]\\]/g, '\\$&')` of `getAliasValue`:
the replacement is a backslash followed by the matched text. -/
def escapeRegExp (aliasName : String) : String :=
  ⟨replaceFrom (RegExp.literal "[.*+?^$\x7b\x7d()|[\\]\\\\]") (fun m => '\\' :: m)
    [] aliasName.data 0⟩

/-- The function `getAliasValue`.  `.ok none` is the result `null`; an error is an
exception of `new RegExp` or of `value.indexOf` on a capture that is `undefined`. -/
def getAliasValue (document : TextDocument) (aliasName : String) :
    Except JsError (Option String) :=
  if aliasName = "" then .ok none
  else
    let text := document.getText none
    let escapedName := escapeRegExp aliasName
    match RegExp.create ("^Alias\\[" ++ escapedName ++ "\\]:\\s*(.*)$") "m" with
    | .error e => .error e
    | .ok regex =>
        match jsMatch text regex with
        | some m =>
            match m.capture 1 with
            | none => .error .typeError
            | some value =>
                let value :=
                  match indexOf "//".data value with
                  | some commentIndex => value.take commentIndex
                  | none => value
                .ok (some ⟨trim value⟩)
        | none => .ok none

/-- The completion provider `provideCompletionItems`: its result and the state of
the hint data afterwards. -/
def provideCompletionItems {σ C H : Type} (hintDataManager : HintDataManager σ C H) (st : σ)
    (document : TextDocument) (position : Position) : Option C × σ :=
  let textBeforeCursor := getTextBeforeCursor document position
  if (hasTextComment textBeforeCursor).isSome then (none, st)
  else
    let st := hintDataManager.init st document.languageId
    let wordRange := document.getWordRangeAtPosition position
    let word := document.getText wordRange
    if (isTextInCondition textBeforeCursor).isSome then
      (if (isTextPossibleKeyword word).isSome then
          hintDataManager.getCompletionConditionKeywords st
        else hintDataManager.getCompletionItems st, st)
    else if (isTextInAction textBeforeCursor).isSome then
      (if (isTextPossibleKeyword word).isSome then
          hintDataManager.getCompletionActionKeywords st
        else none, st)
    else if (isTextInAliasName textBeforeCursor).isSome then (none, st)
    else if (isTextInAliasContent textBeforeCursor).isSome then
      (if (isTextPossibleKeyword word).isSome then
          hintDataManager.getCompletionAllKeywords st
        else hintDataManager.getCompletionItems st, st)
    else if (isTextAtLineStart textBeforeCursor).isSome then
      (hintDataManager.getCompletionLineTypes st, st)
    else (none, st)

/-- The hover provider `provideHover`: its result and the state of the hint data
afterwards, or the exception of `getAliasValue`. -/
def provideHover {σ C H : Type} (hintDataManager : HintDataManager σ C H) (st : σ)
    (document : TextDocument) (position : Position) :
    Except JsError (Option (HoverResult H) × σ) :=
  let char := getTextAtCursor document position
  if (jsMatch char (RegExp.literal "\\w")).isNone then .ok (none, st)
  else
    let textBeforeCursor := getTextBeforeCursor document position
    if (hasTextComment textBeforeCursor).isSome then .ok (none, st)
    else
      let st := hintDataManager.init st document.languageId
      let wordRange := document.getWordRangeAtPosition position
      let word := document.getText wordRange
      let hover : Option H := none
      let hover :=
        if (isTextInCondition textBeforeCursor).isSome then
          hintDataManager.getConditionHoverItem st word
        else hover
      let hover :=
        if (isTextInAction textBeforeCursor).isSome then
          hintDataManager.getActionHoverItem st word
        else hover
      let hover :=
        if (isTextInAliasContent textBeforeCursor).isSome then
          (hintDataManager.getConditionHoverItem st word).or
            (hintDataManager.getActionHoverItem st word)
        else hover
      match hover with
      | some item => .ok (some (.hint item), st)
      | none =>
          match getAliasValue document word with
          | .error e => .error e
          | .ok aliasValue =>
              match aliasValue with
              | some value => if value = "" then .ok (none, st) else .ok (some (.alias value), st)
              | none => .ok (none, st)

/-! ## Context tags -/

/-- The context tags of the spec. -/
inductive ContextTag where
  | Condition
  | Action
  | AliasName
  | AliasContent
  | LineStart
  | None
  deriving DecidableEq, Repr

/-- The context selected by the cascade of `provideCompletionItems`: the comment
check, then the checks in the order of the source, the first that holds. -/
def completionContext (textBeforeCursor : String) : ContextTag :=
  if (hasTextComment textBeforeCursor).isSome then .None
  else if (isTextInCondition textBeforeCursor).isSome then .Condition
  else if (isTextInAction textBeforeCursor).isSome then .Action
  else if (isTextInAliasName textBeforeCursor).isSome then .AliasName
  else if (isTextInAliasContent textBeforeCursor).isSome then .AliasContent
  else if (isTextAtLineStart textBeforeCursor).isSome then .LineStart
  else .None

/-- What the branch of `provideCompletionItems` that belongs to a tag returns, for the
word under the cursor and the state of the hint data after `init`. -/
def completionsFor {σ C H : Type} (hintDataManager : HintDataManager σ C H) (st : σ)
    (word : String) : ContextTag → Option C
  | .Condition =>
      if (isTextPossibleKeyword word).isSome then
        hintDataManager.getCompletionConditionKeywords st
      else hintDataManager.getCompletionItems st
  | .Action =>
      if (isTextPossibleKeyword word).isSome then hintDataManager.getCompletionActionKeywords st
      else none
  | .AliasName => none
  | .AliasContent =>
      if (isTextPossibleKeyword word).isSome then hintDataManager.getCompletionAllKeywords st
      else hintDataManager.getCompletionItems st
  | .LineStart => hintDataManager.getCompletionLineTypes st
  | .None => none

/-- The operation `classify` in the words of the spec (section 4.1): the same checks
in the precedence order given there, closed brackets before open ones. -/
def classifySpec (prefixText : String) : ContextTag :=
  if (hasTextComment prefixText).isSome then .None
  else if (isTextInAction prefixText).isSome then .Action
  else if (isTextInCondition prefixText).isSome then .Condition
  else if (isTextInAliasContent prefixText).isSome then .AliasContent
  else if (isTextInAliasName prefixText).isSome then .AliasName
  else if (isTextAtLineStart prefixText).isSome then .LineStart
  else .None

/-- The value of `hover` in `provideHover` behind its three checks, which are not
chained by `else`: each check that holds assigns anew. -/
def hintHover {σ C H : Type} (hintDataManager : HintDataManager σ C H) (st : σ)
    (word textBeforeCursor : String) : Option H :=
  let hover : Option H := none
  let hover :=
    if (isTextInCondition textBeforeCursor).isSome then
      hintDataManager.getConditionHoverItem st word
    else hover
  let hover :=
    if (isTextInAction textBeforeCursor).isSome then
      hintDataManager.getActionHoverItem st word
    else hover
  let hover :=
    if (isTextInAliasContent textBeforeCursor).isSome then
      (hintDataManager.getConditionHoverItem st word).or
        (hintDataManager.getActionHoverItem st word)
    else hover
  hover

/-- The lookup in the hint data that belongs to a tag: none for `AliasName`,
`LineStart` and `None`. -/
def hintHoverFor {σ C H : Type} (hintDataManager : HintDataManager σ C H) (st : σ)
    (word : String) : ContextTag → Option H
  | .Condition => hintDataManager.getConditionHoverItem st word
  | .Action => hintDataManager.getActionHoverItem st word
  | .AliasContent =>
      (hintDataManager.getConditionHoverItem st word).or
        (hintDataManager.getActionHoverItem st word)
  | .AliasName => none
  | .LineStart => none
  | .None => none

/-- The fallback of `provideHover` when the hint data give no hover: a hover that
carries the alias value when there is one and it is not empty. -/
def aliasHover {H : Type} (aliasValue : Option String) : Option (HoverResult H) :=
  match aliasValue with
  | some value => if value = "" then none else some (.alias value)
  | none => none

/-! ## A small host for the examples -/

/-- A document of a single line: a range is read by its columns, the whole text is
the line, and the word range at any position is the one given. -/
def oneLineDocument (line : String) (wordRange : Option Range) : TextDocument where
  getText := fun range =>
    match range with
    | none => line
    | some r =>
        ⟨(line.data.drop r.start.character).take (r.stop.character - r.start.character)⟩
  getWordRangeAtPosition := fun _ => wordRange
  languageId := "pd2"

/-- A document of several lines: a range is read on the line of its start by its
columns, the whole text joins the lines with line feeds, and the word range at any
position is the one given. -/
def linesDocument (lines : List String) (wordRange : Option Range) : TextDocument where
  getText := fun range =>
    match range with
    | none => ⟨List.intercalate ['\n'] (lines.map String.data)⟩
    | some r =>
        ⟨(((lines.getD r.start.line "").data).drop r.start.character).take
          (r.stop.character - r.start.character)⟩
  getWordRangeAtPosition := fun _ => wordRange
  languageId := "pd2"

/-- Hint data for the examples: the state is the language it was initialised with,
the completion lists are names and a hover item repeats the word it is asked for. -/
def sampleHints : HintDataManager String String String where
  init := fun _ languageId => languageId
  getCompletionConditionKeywords := fun _ => some "condition keywords"
  getCompletionActionKeywords := fun _ => some "action keywords"
  getCompletionAllKeywords := fun _ => some "all keywords"
  getCompletionItems := fun _ => some "items"
  getCompletionLineTypes := fun _ => some "line types"
  getConditionHoverItem := fun _ word => if word = "CLVL" then some "condition CLVL" else none
  getActionHoverItem := fun _ word => if word = "RED" then some "action RED" else none

/-! ## The matcher on the terms of the source's patterns -/

theorem run_cat_nil (m : Bool) (s : MState) : Re.run m (Re.cat []) s = [s] := rfl

theorem run_cat_cons (m : Bool) (r : Re) (rs : List Re) (s : MState) :
    Re.run m (Re.cat (r :: rs)) s = (Re.run m r s).flatMap fun s' => Re.run m (Re.cat rs) s' :=
  rfl

theorem run_set_nil (m : Bool) (cs : CharSet) (b : List Char) (k : List (Nat × List Char)) :
    Re.run m (.set cs) ⟨b, [], k⟩ = [] := rfl

theorem run_set_cons (m : Bool) (cs : CharSet) (b : List Char) (c : Char) (a : List Char)
    (k : List (Nat × List Char)) :
    Re.run m (.set cs) ⟨b, c :: a, k⟩ = if cs.test c then [⟨c :: b, a, k⟩] else [] := rfl

/-- A literal run of pattern characters matches exactly when it is ahead. -/
theorem run_chars_append (m : Bool) (cs : List Char) (rs : List Re) (b a : List Char)
    (k : List (Nat × List Char)) :
    Re.run m (Re.cat (Re.chars cs ++ rs)) ⟨b, cs ++ a, k⟩ =
      Re.run m (Re.cat rs) ⟨cs.reverse ++ b, a, k⟩ := by
  induction cs generalizing b with
  | nil => rfl
  | cons c cs ih =>
      have h := ih (c :: b)
      simp only [Re.chars, List.map_cons, List.cons_append, run_cat_cons, run_set_cons,
        CharSet.test, beq_self_eq_true, if_true, List.flatMap_cons, List.flatMap_nil,
        List.append_nil, List.reverse_cons, List.append_assoc, List.singleton_append] at h ⊢
      exact h

/-- A literal run of pattern characters matches only when it is ahead. -/
theorem mem_run_chars (m : Bool) (cs : List Char) (rs : List Re) (b a : List Char)
    (k : List (Nat × List Char)) (s' : MState)
    (h : s' ∈ Re.run m (Re.cat (Re.chars cs ++ rs)) ⟨b, a, k⟩) :
    ∃ a', a = cs ++ a' := by
  induction cs generalizing b a with
  | nil => exact ⟨a, rfl⟩
  | cons c cs ih =>
      cases a with
      | nil =>
          simp [Re.chars, run_cat_cons, run_set_nil] at h
      | cons x a =>
          simp only [Re.chars, List.map_cons, List.cons_append, run_cat_cons, run_set_cons,
            CharSet.test] at h
          by_cases hx : x = c
          · subst hx
            simp only [beq_self_eq_true, if_true, List.flatMap_cons, List.flatMap_nil,
              List.append_nil] at h
            obtain ⟨a', ha'⟩ := ih (x :: b) a h
            exact ⟨a', by rw [ha']; rfl⟩
          · have : (x == c) = false := by simpa using hx
            simp [this] at h

theorem starLoop_set_nil (m : Bool) (cs : CharSet) (n : Nat) (b : List Char)
    (k : List (Nat × List Char)) :
    starLoop (fun s' => Re.run m (.set cs) s') n ⟨b, [], k⟩ = [⟨b, [], k⟩] := by
  cases n <;> simp [starLoop, run_set_nil]

theorem starLoop_set_cons (m : Bool) (cs : CharSet) (n : Nat) (b : List Char) (c : Char)
    (a : List Char) (k : List (Nat × List Char)) :
    starLoop (fun s' => Re.run m (.set cs) s') (n + 1) ⟨b, c :: a, k⟩ =
      if cs.test c then
        starLoop (fun s' => Re.run m (.set cs) s') n ⟨c :: b, a, k⟩ ++ [⟨b, c :: a, k⟩]
      else [⟨b, c :: a, k⟩] := by
  by_cases h : cs.test c <;> simp [starLoop, run_set_cons, h]

/-- The results of a greedy repetition of one character set: the runs of characters
of the set that are ahead. -/
theorem mem_starLoop_set (m : Bool) (cs : CharSet) (n : Nat) (b a : List Char)
    (k : List (Nat × List Char)) (hn : a.length ≤ n) (s' : MState) :
    s' ∈ starLoop (fun s' => Re.run m (.set cs) s') n ⟨b, a, k⟩ ↔
      ∃ pre post, a = pre ++ post ∧ (∀ c ∈ pre, cs.test c = true) ∧
        s' = ⟨pre.reverse ++ b, post, k⟩ := by
  induction n generalizing b a with
  | zero =>
      have ha : a = [] := List.length_eq_zero.mp (Nat.le_zero.mp hn)
      subst ha
      rw [starLoop_set_nil]
      constructor
      · intro h
        exact ⟨[], [], rfl, by simp, by simpa using h⟩
      · rintro ⟨pre, post, h1, _, h3⟩
        have hp : pre = [] ∧ post = [] := by simpa using h1.symm
        simp [h3, hp.1, hp.2]
  | succ n ih =>
      cases a with
      | nil =>
          rw [starLoop_set_nil]
          constructor
          · intro h
            exact ⟨[], [], rfl, by simp, by simpa using h⟩
          · rintro ⟨pre, post, h1, _, h3⟩
            have hp : pre = [] ∧ post = [] := by simpa using h1.symm
            simp [h3, hp.1, hp.2]
      | cons c a =>
          rw [starLoop_set_cons]
          have hn' : a.length ≤ n := by simpa using hn
          by_cases hc : cs.test c = true
          · simp only [hc, if_true, List.mem_append, List.mem_singleton, ih (c :: b) a hn']
            constructor
            · rintro (⟨pre, post, h1, h2, h3⟩ | h)
              · refine ⟨c :: pre, post, by rw [h1]; rfl, ?_, by simp [h3]⟩
                intro x hx
                rcases List.mem_cons.mp hx with rfl | hx
                · exact hc
                · exact h2 x hx
              · exact ⟨[], c :: a, rfl, by simp, by simp [h]⟩
            · rintro ⟨pre, post, h1, h2, h3⟩
              cases pre with
              | nil =>
                  right
                  simp at h1
                  simp [h3, h1]
              | cons x pre =>
                  left
                  simp only [List.cons_append, List.cons.injEq] at h1
                  refine ⟨pre, post, h1.2, fun y hy => h2 y (List.mem_cons_of_mem _ hy), ?_⟩
                  simp [h3, h1.1]
          · have hc' : cs.test c = false := by simpa using hc
            simp only [hc', Bool.false_eq_true, if_false, List.mem_singleton]
            constructor
            · intro h
              exact ⟨[], c :: a, rfl, by simp, by simp [h]⟩
            · rintro ⟨pre, post, h1, h2, h3⟩
              cases pre with
              | nil =>
                  simp at h1
                  simp [h3, h1]
              | cons x pre =>
                  simp only [List.cons_append, List.cons.injEq] at h1
                  exact absurd (h2 x (List.mem_cons_self _ _)) (by rw [← h1.1]; exact hc)

/-- The first result of a greedy repetition of one character set takes the longest
run of characters of the set. -/
theorem head_starLoop_set (m : Bool) (cs : CharSet) (n : Nat) (b a : List Char)
    (k : List (Nat × List Char)) (hn : a.length ≤ n) :
    ∃ tl, starLoop (fun s' => Re.run m (.set cs) s') n ⟨b, a, k⟩ =
      ⟨(a.takeWhile cs.test).reverse ++ b, a.dropWhile cs.test, k⟩ :: tl := by
  induction n generalizing b a with
  | zero =>
      have ha : a = [] := List.length_eq_zero.mp (Nat.le_zero.mp hn)
      subst ha
      exact ⟨[], by rw [starLoop_set_nil]; rfl⟩
  | succ n ih =>
      cases a with
      | nil => exact ⟨[], by rw [starLoop_set_nil]; rfl⟩
      | cons c a =>
          rw [starLoop_set_cons]
          have hn' : a.length ≤ n := by simpa using hn
          by_cases hc : cs.test c = true
          · obtain ⟨tl, htl⟩ := ih (c :: b) a hn'
            refine ⟨tl ++ [⟨b, c :: a, k⟩], ?_⟩
            simp [hc, htl, List.takeWhile_cons, List.dropWhile_cons]
          · refine ⟨[], ?_⟩
            simp [hc, List.takeWhile_cons, List.dropWhile_cons]

theorem mem_run_star_set (m : Bool) (cs : CharSet) (s s' : MState) :
    s' ∈ Re.run m (.star (.set cs)) s ↔
      ∃ pre post, s.after = pre ++ post ∧ (∀ c ∈ pre, cs.test c = true) ∧
        s' = ⟨pre.reverse ++ s.before, post, s.caps⟩ := by
  obtain ⟨b, a, k⟩ := s
  exact mem_starLoop_set m cs a.length b a k (Nat.le_refl _) s'

theorem mem_run_plus_set (m : Bool) (cs : CharSet) (s s' : MState) :
    s' ∈ Re.run m (.plus (.set cs)) s ↔
      ∃ pre post, s.after = pre ++ post ∧ pre ≠ [] ∧ (∀ c ∈ pre, cs.test c = true) ∧
        s' = ⟨pre.reverse ++ s.before, post, s.caps⟩ := by
  obtain ⟨b, a, k⟩ := s
  cases a with
  | nil =>
      constructor
      · intro h
        simp [Re.run] at h
      · rintro ⟨pre, post, h1, h2, -, -⟩
        have hp : pre = [] ∧ post = [] := by simpa using h1.symm
        exact absurd hp.1 h2
  | cons c a =>
      by_cases hc : cs.test c = true
      · have hrun : Re.run m (.plus (.set cs)) ⟨b, c :: a, k⟩ =
            starLoop (fun s' => Re.run m (.set cs) s') a.length ⟨c :: b, a, k⟩ := by
          simp [Re.run, hc]
        rw [hrun, mem_starLoop_set m cs a.length (c :: b) a k (Nat.le_refl _) s']
        constructor
        · rintro ⟨pre, post, h1, h2, h3⟩
          refine ⟨c :: pre, post, by simp [h1], by simp, ?_, by simp [h3]⟩
          intro x hx
          rcases List.mem_cons.mp hx with rfl | hx
          · exact hc
          · exact h2 x hx
        · rintro ⟨pre, post, h1, h2, h3, h4⟩
          cases pre with
          | nil => exact absurd rfl h2
          | cons x pre =>
              simp only [List.cons_append, List.cons.injEq] at h1
              refine ⟨pre, post, h1.2, fun y hy => h3 y (List.mem_cons_of_mem _ hy), ?_⟩
              simp [h4, h1.1]
      · have hc' : cs.test c = false := by simpa using hc
        constructor
        · intro h
          simp [Re.run, hc'] at h
        · rintro ⟨pre, post, h1, h2, h3, -⟩
          cases pre with
          | nil => exact absurd rfl h2
          | cons x pre =>
              simp only [List.cons_append, List.cons.injEq] at h1
              exact absurd (h3 x (List.mem_cons_self _ _)) (by rw [← h1.1]; exact hc)

theorem mem_run_bol (s s' : MState) :
    s' ∈ Re.run false .bol s ↔ s.before = [] ∧ s' = s := by
  obtain ⟨b, a, k⟩ := s
  cases b <;> simp [Re.run, MState.atLineStart]

theorem mem_run_eol (s s' : MState) :
    s' ∈ Re.run false .eol s ↔ s.after = [] ∧ s' = s := by
  obtain ⟨b, a, k⟩ := s
  cases a <;> simp [Re.run, MState.atLineEnd]

theorem mem_run_seq (m : Bool) (r1 r2 : Re) (s s' : MState) :
    s' ∈ Re.run m (.seq r1 r2) s ↔ ∃ s1, s1 ∈ Re.run m r1 s ∧ s' ∈ Re.run m r2 s1 := by
  simp [Re.run, List.mem_flatMap]

theorem mem_run_cat_cons (m : Bool) (r : Re) (rs : List Re) (s s' : MState) :
    s' ∈ Re.run m (Re.cat (r :: rs)) s ↔
      ∃ s1, s1 ∈ Re.run m r s ∧ s' ∈ Re.run m (Re.cat rs) s1 :=
  mem_run_seq m r (Re.cat rs) s s'

theorem mem_run_cat_nil (m : Bool) (s s' : MState) :
    s' ∈ Re.run m (Re.cat []) s ↔ s' = s := by
  simp [run_cat_nil]

/-- A literal run of pattern characters, as a membership. -/
theorem mem_run_chars_iff (m : Bool) (cs : List Char) (rs : List Re) (s s' : MState) :
    s' ∈ Re.run m (Re.cat (Re.chars cs ++ rs)) s ↔
      ∃ a', s.after = cs ++ a' ∧
        s' ∈ Re.run m (Re.cat rs) ⟨cs.reverse ++ s.before, a', s.caps⟩ := by
  obtain ⟨b, a, k⟩ := s
  constructor
  · intro h
    obtain ⟨a', ha'⟩ := mem_run_chars m cs rs b a k s' h
    subst ha'
    rw [run_chars_append] at h
    exact ⟨a', rfl, h⟩
  · rintro ⟨a', ha', h⟩
    simp only at ha'
    subst ha'
    rw [run_chars_append]
    exact h

/-- The search finds a match exactly when the pattern matches at some index. -/
theorem execFrom_isSome_iff (re : RegExp) (before after : List Char) :
    (execFrom re before after).isSome = true ↔
      ∃ pre post, after = pre ++ post ∧
        re.pattern.run re.multiline ⟨pre.reverse ++ before, post, []⟩ ≠ [] := by
  induction after generalizing before with
  | nil =>
      cases hrun : (re.pattern.run re.multiline ⟨before, [], []⟩).head? with
      | some s1 =>
          simp only [execFrom, hrun, Option.isSome_some, true_iff]
          refine ⟨[], [], rfl, ?_⟩
          intro h
          simp only [List.reverse_nil, List.nil_append] at h
          rw [h] at hrun
          exact absurd hrun (by simp)
      | none =>
          simp only [execFrom, hrun, Option.isSome_none, Bool.false_eq_true, false_iff]
          rintro ⟨pre, post, h1, h2⟩
          have hp : pre = [] ∧ post = [] := by simpa using h1.symm
          rw [hp.1, hp.2] at h2
          exact h2 (List.head?_eq_none_iff.mp hrun)
  | cons c rest ih =>
      cases hrun : (re.pattern.run re.multiline ⟨before, c :: rest, []⟩).head? with
      | some s1 =>
          simp only [execFrom, hrun, Option.isSome_some, true_iff]
          refine ⟨[], c :: rest, rfl, ?_⟩
          intro h
          simp only [List.reverse_nil, List.nil_append] at h
          rw [h] at hrun
          exact absurd hrun (by simp)
      | none =>
          simp only [execFrom, hrun, ih]
          constructor
          · rintro ⟨pre, post, h1, h2⟩
            exact ⟨c :: pre, post, by simp [h1], by simpa using h2⟩
          · rintro ⟨pre, post, h1, h2⟩
            cases pre with
            | nil =>
                simp only [List.nil_append] at h1
                subst h1
                exact absurd (List.head?_eq_none_iff.mp hrun) h2
            | cons x pre =>
                simp only [List.cons_append, List.cons.injEq] at h1
                refine ⟨pre, post, h1.2, ?_⟩
                rw [h1.1]
                simpa using h2

/-- A search that succeeds at the current index returns the first result there. -/
theorem execFrom_of_head (re : RegExp) (before after : List Char) (s1 : MState)
    (h : (re.pattern.run re.multiline ⟨before, after, []⟩).head? = some s1) :
    execFrom re before after =
      some ⟨before.length, after.take (after.length - s1.after.length), s1.caps⟩ := by
  cases after with
  | nil => simp [execFrom, h]
  | cons c rest => simp only [execFrom, h]

/-- A pattern that starts with `^` and has no `m` flag matches at index 0 or
nowhere. -/
theorem jsMatch_bol_isSome_iff (rs : List Re) (text : String) :
    (jsMatch text ⟨Re.cat (.bol :: rs), false⟩).isSome = true ↔
      ∃ s', s' ∈ Re.run false (Re.cat rs) ⟨[], text.data, []⟩ := by
  unfold jsMatch
  rw [execFrom_isSome_iff]
  constructor
  · rintro ⟨pre, post, h1, h2⟩
    obtain ⟨s', hs'⟩ := List.exists_mem_of_ne_nil _ h2
    simp only [mem_run_cat_cons, mem_run_bol] at hs'
    obtain ⟨s1, ⟨hb, rfl⟩, hs'⟩ := hs'
    have hpre : pre = [] := by simpa using hb
    subst hpre
    simp only [List.nil_append] at h1
    subst h1
    exact ⟨s', by simpa using hs'⟩
  · rintro ⟨s', hs'⟩
    refine ⟨[], text.data, rfl, ?_⟩
    apply List.ne_nil_of_mem (a := s')
    simp only [mem_run_cat_cons, mem_run_bol]
    exact ⟨_, ⟨rfl, rfl⟩, by simpa using hs'⟩

/-! ## The patterns of the source, as read by `parsePattern` -/

theorem literal_comment :
    RegExp.literal "\\/\\/" = ⟨Re.cat (Re.chars "//".data ++ []), false⟩ := by decide

theorem literal_condition :
    RegExp.literal "^ItemDisplay\\[[^\\]]*$" =
      ⟨Re.cat (.bol :: (Re.chars "ItemDisplay[".data ++
        [.star (.set (.cls true [(']', ']')])), .eol])), false⟩ := by decide

theorem literal_action :
    RegExp.literal "^ItemDisplay\\[[^\\]]*\\]:" =
      ⟨Re.cat (.bol :: (Re.chars "ItemDisplay[".data ++
        [.star (.set (.cls true [(']', ']')])), .set (.char ']'), .set (.char ':')])),
        false⟩ := by decide

theorem literal_aliasName :
    RegExp.literal "^Alias\\[[^\\]]*$" =
      ⟨Re.cat (.bol :: (Re.chars "Alias[".data ++
        [.star (.set (.cls true [(']', ']')])), .eol])), false⟩ := by decide

theorem literal_aliasContent :
    RegExp.literal "^Alias\\[[^\\]]*\\]:" =
      ⟨Re.cat (.bol :: (Re.chars "Alias[".data ++
        [.star (.set (.cls true [(']', ']')])), .set (.char ']'), .set (.char ':')])),
        false⟩ := by decide

theorem literal_blank :
    RegExp.literal "^\\s*$" = ⟨Re.cat [.bol, .star (.set .space), .eol], false⟩ := by decide

theorem literal_partialWord :
    RegExp.literal "^\\s*[A-Za-z]+$" =
      ⟨Re.cat [.bol, .star (.set .space), .plus (.set (.cls false [('A', 'Z'), ('a', 'z')])),
        .eol], false⟩ := by decide

theorem literal_keyword :
    RegExp.literal "^[A-Z0-9_-]+$" =
      ⟨Re.cat [.bol, .plus (.set (.cls false [('A', 'Z'), ('0', '9'), ('_', '_'), ('-', '-')])),
        .eol], false⟩ := by decide

theorem literal_word : RegExp.literal "\\w" = ⟨Re.cat [.set .word], false⟩ := by decide

theorem literal_escape :
    RegExp.literal "[.*+?^$\x7b\x7d()|[\\]\\\\]" =
      ⟨Re.cat [.set (.cls false [('.', '.'), ('*', '*'), ('+', '+'), ('?', '?'), ('^', '^'),
        ('$', '$'), ('\x7b', '\x7b'), ('\x7d', '\x7d'), ('(', '('), (')', ')'), ('|', '|'),
        ('[', '['), (']', ']'), ('\\', '\\')])], false⟩ := by decide

theorem char_eq_of_toNat_eq {c d : Char} (h : c.toNat = d.toNat) : c = d := by
  rw [← Char.ofNat_toNat c, h, Char.ofNat_toNat]

theorem toNat_eq_iff (c d : Char) : c.toNat = d.toNat ↔ c = d :=
  ⟨char_eq_of_toNat_eq, fun h => by rw [h]⟩

theorem range_self_eq_beq (c d : Char) :
    (decide (d.toNat ≤ c.toNat) && decide (c.toNat ≤ d.toNat)) = (c == d) := by
  rw [Bool.eq_iff_iff]
  simp only [Bool.and_eq_true, decide_eq_true_eq, beq_iff_eq]
  constructor
  · intro h
    exact char_eq_of_toNat_eq (Nat.le_antisymm h.2 h.1)
  · rintro rfl
    exact ⟨Nat.le_refl _, Nat.le_refl _⟩

theorem test_notBracket (c : Char) :
    (CharSet.cls true [(']', ']')]).test c = true ↔ c ≠ ']' := by
  have h : c.toNat = 93 ↔ c = ']' := toNat_eq_iff c ']'
  simp [CharSet.test, h]

theorem test_letters (c : Char) :
    (CharSet.cls false [('A', 'Z'), ('a', 'z')]).test c = isAsciiLetter c := by
  simp [CharSet.test, isAsciiLetter]

theorem test_keyword (c : Char) :
    (CharSet.cls false [('A', 'Z'), ('0', '9'), ('_', '_'), ('-', '-')]).test c =
      isKeywordChar c := by
  have e1 : (decide (95 ≤ c.toNat) && decide (c.toNat ≤ 95)) = (c == '_') :=
    range_self_eq_beq c '_'
  have e2 : (decide (45 ≤ c.toNat) && decide (c.toNat ≤ 45)) = (c == '-') :=
    range_self_eq_beq c '-'
  simp [CharSet.test, isKeywordChar, e1, e2, Bool.or_assoc]

/-! ## What each check of the source accepts -/

theorem hasTextComment_iff (text : String) :
    (hasTextComment text).isSome = true ↔ "//".data <:+: text.data := by
  unfold hasTextComment jsMatch
  rw [literal_comment, execFrom_isSome_iff]
  constructor
  · rintro ⟨pre, post, h1, h2⟩
    obtain ⟨s', hs'⟩ := List.exists_mem_of_ne_nil _ h2
    obtain ⟨a', ha', -⟩ := (mem_run_chars_iff _ _ _ _ _).mp hs'
    simp only at ha'
    exact ⟨pre, a', by rw [h1, ha', List.append_assoc]⟩
  · rintro ⟨pre, post, h⟩
    refine ⟨pre, "//".data ++ post, by rw [← h, List.append_assoc], ?_⟩
    apply List.ne_nil_of_mem (a := ⟨"//".data.reverse ++ (pre.reverse ++ []), post, []⟩)
    rw [mem_run_chars_iff]
    exact ⟨post, rfl, by simp [run_cat_nil]⟩

/-- A pattern `^P[S]*$`: the text is `P` followed by characters of `S` only. -/
theorem bracketOpen_iff (P : List Char) (S : CharSet) (text : String) :
    (jsMatch text ⟨Re.cat (.bol :: (Re.chars P ++ [.star (.set S), .eol])), false⟩).isSome = true ↔
      ∃ rest, text.data = P ++ rest ∧ ∀ c ∈ rest, S.test c = true := by
  rw [jsMatch_bol_isSome_iff]
  constructor
  · rintro ⟨s', hs'⟩
    obtain ⟨a', h1, hs'⟩ := (mem_run_chars_iff false P _ _ _).mp hs'
    obtain ⟨s1, hs1, hs'⟩ := (mem_run_cat_cons _ _ _ _ _).mp hs'
    obtain ⟨pre, post, h2, h3, rfl⟩ := (mem_run_star_set _ _ _ _).mp hs1
    obtain ⟨s2, hs2, -⟩ := (mem_run_cat_cons _ _ _ _ _).mp hs'
    obtain ⟨h4, -⟩ := (mem_run_eol _ _).mp hs2
    simp only at h1 h2 h4
    subst h4
    exact ⟨pre, by rw [h1, h2, List.append_nil], h3⟩
  · rintro ⟨rest, h1, h2⟩
    refine ⟨⟨rest.reverse ++ (P.reverse ++ []), [], []⟩, ?_⟩
    refine (mem_run_chars_iff false P _ _ _).mpr ⟨rest, h1, ?_⟩
    refine (mem_run_cat_cons _ _ _ _ _).mpr ⟨⟨rest.reverse ++ (P.reverse ++ []), [], []⟩, ?_, ?_⟩
    · exact (mem_run_star_set _ _ _ _).mpr ⟨rest, [], by simp, h2, rfl⟩
    · refine (mem_run_cat_cons _ _ _ _ _).mpr ⟨_, (mem_run_eol _ _).mpr ⟨rfl, rfl⟩, ?_⟩
      exact (mem_run_cat_nil _ _ _).mpr rfl

/-- A pattern `^P[S]*qr`: the text is `P`, characters of `S`, then `q`, `r` and anything. -/
theorem bracketClosed_iff (P : List Char) (S : CharSet) (q r : Char) (text : String) :
    (jsMatch text ⟨Re.cat (.bol :: (Re.chars P ++
        [.star (.set S), .set (.char q), .set (.char r)])), false⟩).isSome = true ↔
      ∃ mid rest, text.data = P ++ mid ++ q :: r :: rest ∧ ∀ c ∈ mid, S.test c = true := by
  rw [jsMatch_bol_isSome_iff]
  constructor
  · rintro ⟨s', hs'⟩
    obtain ⟨a', h1, hs'⟩ := (mem_run_chars_iff false P _ _ _).mp hs'
    obtain ⟨s1, hs1, hs'⟩ := (mem_run_cat_cons _ _ _ _ _).mp hs'
    obtain ⟨pre, post, h2, h3, rfl⟩ := (mem_run_star_set _ _ _ _).mp hs1
    obtain ⟨a2, h4, -⟩ := (mem_run_chars_iff false [q, r] [] _ _).mp hs'
    simp only at h1 h2 h4
    exact ⟨pre, a2, by rw [h1, h2, h4]; simp, h3⟩
  · rintro ⟨mid, rest, h1, h2⟩
    refine ⟨⟨[q, r].reverse ++ (mid.reverse ++ (P.reverse ++ [])), rest, []⟩, ?_⟩
    refine (mem_run_chars_iff false P _ _ _).mpr ⟨mid ++ q :: r :: rest, by rw [h1]; simp, ?_⟩
    refine (mem_run_cat_cons _ _ _ _ _).mpr
      ⟨⟨mid.reverse ++ (P.reverse ++ []), q :: r :: rest, []⟩, ?_, ?_⟩
    · exact (mem_run_star_set _ _ _ _).mpr ⟨mid, q :: r :: rest, rfl, h2, rfl⟩
    · exact (mem_run_chars_iff false [q, r] [] _ _).mpr ⟨rest, rfl, (mem_run_cat_nil _ _ _).mpr rfl⟩

theorem isTextInCondition_iff (text : String) :
    (isTextInCondition text).isSome = true ↔
      ∃ rest, text.data = "ItemDisplay[".data ++ rest ∧ ∀ c ∈ rest, c ≠ ']' := by
  unfold isTextInCondition
  rw [literal_condition, bracketOpen_iff]
  simp only [test_notBracket]

theorem isTextInAction_iff (text : String) :
    (isTextInAction text).isSome = true ↔
      ∃ mid rest, text.data = "ItemDisplay[".data ++ mid ++ ']' :: ':' :: rest ∧
        ∀ c ∈ mid, c ≠ ']' := by
  unfold isTextInAction
  rw [literal_action, bracketClosed_iff]
  simp only [test_notBracket]

theorem isTextInAliasName_iff (text : String) :
    (isTextInAliasName text).isSome = true ↔
      ∃ rest, text.data = "Alias[".data ++ rest ∧ ∀ c ∈ rest, c ≠ ']' := by
  unfold isTextInAliasName
  rw [literal_aliasName, bracketOpen_iff]
  simp only [test_notBracket]

theorem isTextInAliasContent_iff (text : String) :
    (isTextInAliasContent text).isSome = true ↔
      ∃ mid rest, text.data = "Alias[".data ++ mid ++ ']' :: ':' :: rest ∧
        ∀ c ∈ mid, c ≠ ']' := by
  unfold isTextInAliasContent
  rw [literal_aliasContent, bracketClosed_iff]
  simp only [test_notBracket]

/-- The pattern `^\s*$` accepts the texts made of spaces only. -/
theorem blank_iff (text : String) :
    (jsMatch text (RegExp.literal "^\\s*$")).isSome = true ↔
      ∀ c ∈ text.data, isSpace c = true := by
  rw [literal_blank]
  have h := bracketOpen_iff [] .space text
  simp only [Re.chars, List.map_nil, List.nil_append, CharSet.test] at h
  rw [h]
  constructor
  · rintro ⟨rest, h1, h2⟩
    rw [h1]
    exact h2
  · intro h2
    exact ⟨text.data, rfl, h2⟩

/-- The pattern `^\s*[A-Za-z]+$` accepts spaces followed by one or more letters. -/
theorem partialWord_iff (text : String) :
    (jsMatch text (RegExp.literal "^\\s*[A-Za-z]+$")).isSome = true ↔
      ∃ ws w, text.data = ws ++ w ∧ (∀ c ∈ ws, isSpace c = true) ∧ w ≠ [] ∧
        ∀ c ∈ w, isAsciiLetter c = true := by
  rw [literal_partialWord, jsMatch_bol_isSome_iff]
  constructor
  · rintro ⟨s', hs'⟩
    obtain ⟨s1, hs1, hs'⟩ := (mem_run_cat_cons _ _ _ _ _).mp hs'
    obtain ⟨ws, post, h1, h2, rfl⟩ := (mem_run_star_set _ _ _ _).mp hs1
    obtain ⟨s2, hs2, hs'⟩ := (mem_run_cat_cons _ _ _ _ _).mp hs'
    obtain ⟨w, post2, h3, h4, h5, rfl⟩ := (mem_run_plus_set _ _ _ _).mp hs2
    obtain ⟨s3, hs3, -⟩ := (mem_run_cat_cons _ _ _ _ _).mp hs'
    obtain ⟨h6, -⟩ := (mem_run_eol _ _).mp hs3
    simp only at h1 h3 h6
    subst h6
    refine ⟨ws, w, by rw [h1, h3, List.append_nil], h2, h4, ?_⟩
    intro c hc
    rw [← test_letters]
    exact h5 c hc
  · rintro ⟨ws, w, h1, h2, h3, h4⟩
    refine ⟨⟨w.reverse ++ (ws.reverse ++ []), [], []⟩, ?_⟩
    refine (mem_run_cat_cons _ _ _ _ _).mpr ⟨⟨ws.reverse ++ [], w, []⟩, ?_, ?_⟩
    · exact (mem_run_star_set _ _ _ _).mpr ⟨ws, w, h1, h2, rfl⟩
    · refine (mem_run_cat_cons _ _ _ _ _).mpr ⟨⟨w.reverse ++ (ws.reverse ++ []), [], []⟩, ?_, ?_⟩
      · refine (mem_run_plus_set _ _ _ _).mpr ⟨w, [], by simp, h3, ?_, rfl⟩
        intro c hc
        rw [test_letters]
        exact h4 c hc
      · refine (mem_run_cat_cons _ _ _ _ _).mpr ⟨_, (mem_run_eol _ _).mpr ⟨rfl, rfl⟩, ?_⟩
        exact (mem_run_cat_nil _ _ _).mpr rfl

theorem isTextAtLineStart_iff (text : String) :
    (isTextAtLineStart text).isSome = true ↔
      (∀ c ∈ text.data, isSpace c = true) ∨
      ∃ ws w, text.data = ws ++ w ∧ (∀ c ∈ ws, isSpace c = true) ∧ w ≠ [] ∧
        ∀ c ∈ w, isAsciiLetter c = true := by
  unfold isTextAtLineStart
  rw [Option.isSome_or, Bool.or_eq_true, blank_iff, partialWord_iff]

theorem isTextPossibleKeyword_iff (text : String) :
    (isTextPossibleKeyword text).isSome = true ↔
      text.data ≠ [] ∧ ∀ c ∈ text.data, isKeywordChar c = true := by
  unfold isTextPossibleKeyword
  rw [literal_keyword, jsMatch_bol_isSome_iff]
  constructor
  · rintro ⟨s', hs'⟩
    obtain ⟨s1, hs1, hs'⟩ := (mem_run_cat_cons _ _ _ _ _).mp hs'
    obtain ⟨w, post, h1, h2, h3, rfl⟩ := (mem_run_plus_set _ _ _ _).mp hs1
    obtain ⟨s2, hs2, -⟩ := (mem_run_cat_cons _ _ _ _ _).mp hs'
    obtain ⟨h4, -⟩ := (mem_run_eol _ _).mp hs2
    simp only at h1 h4
    subst h4
    rw [h1, List.append_nil]
    refine ⟨h2, ?_⟩
    intro c hc
    rw [← test_keyword]
    exact h3 c hc
  · rintro ⟨h1, h2⟩
    refine ⟨⟨text.data.reverse ++ [], [], []⟩, ?_⟩
    refine (mem_run_cat_cons _ _ _ _ _).mpr ⟨⟨text.data.reverse ++ [], [], []⟩, ?_, ?_⟩
    · refine (mem_run_plus_set _ _ _ _).mpr ⟨text.data, [], by simp, h1, ?_, rfl⟩
      intro c hc
      rw [test_keyword]
      exact h2 c hc
    · refine (mem_run_cat_cons _ _ _ _ _).mpr ⟨_, (mem_run_eol _ _).mpr ⟨rfl, rfl⟩, ?_⟩
      exact (mem_run_cat_nil _ _ _).mpr rfl

/-! ## The checks exclude one another -/

theorem not_space_bracket : isSpace '[' = false := by decide

theorem not_letter_bracket : isAsciiLetter '[' = false := by decide

theorem lineStart_no_bracket (text : String) (h : (isTextAtLineStart text).isSome = true) :
    '[' ∉ text.data := by
  intro hmem
  rcases (isTextAtLineStart_iff text).mp h with h1 | ⟨ws, w, h1, h2, -, h4⟩
  · have := h1 _ hmem
    rw [not_space_bracket] at this
    exact absurd this (by decide)
  · rw [h1] at hmem
    rcases List.mem_append.mp hmem with hm | hm
    · have := h2 _ hm
      rw [not_space_bracket] at this
      exact absurd this (by decide)
    · have := h4 _ hm
      rw [not_letter_bracket] at this
      exact absurd this (by decide)

theorem condition_has_bracket (text : String) (h : (isTextInCondition text).isSome = true) :
    '[' ∈ text.data := by
  obtain ⟨rest, h1, -⟩ := (isTextInCondition_iff text).mp h
  rw [h1]
  exact List.mem_append_left _ (by decide)

theorem action_has_bracket (text : String) (h : (isTextInAction text).isSome = true) :
    '[' ∈ text.data := by
  obtain ⟨mid, rest, h1, -⟩ := (isTextInAction_iff text).mp h
  rw [h1, List.append_assoc]
  exact List.mem_append_left _ (by decide)

theorem aliasName_has_bracket (text : String) (h : (isTextInAliasName text).isSome = true) :
    '[' ∈ text.data := by
  obtain ⟨rest, h1, -⟩ := (isTextInAliasName_iff text).mp h
  rw [h1]
  exact List.mem_append_left _ (by decide)

theorem aliasContent_has_bracket (text : String)
    (h : (isTextInAliasContent text).isSome = true) : '[' ∈ text.data := by
  obtain ⟨mid, rest, h1, -⟩ := (isTextInAliasContent_iff text).mp h
  rw [h1, List.append_assoc]
  exact List.mem_append_left _ (by decide)

theorem condition_head (text : String) (h : (isTextInCondition text).isSome = true) :
    text.data.head? = some 'I' := by
  obtain ⟨rest, h1, -⟩ := (isTextInCondition_iff text).mp h
  rw [h1]
  rfl

theorem action_head (text : String) (h : (isTextInAction text).isSome = true) :
    text.data.head? = some 'I' := by
  obtain ⟨mid, rest, h1, -⟩ := (isTextInAction_iff text).mp h
  rw [h1, List.append_assoc]
  rfl

theorem aliasName_head (text : String) (h : (isTextInAliasName text).isSome = true) :
    text.data.head? = some 'A' := by
  obtain ⟨rest, h1, -⟩ := (isTextInAliasName_iff text).mp h
  rw [h1]
  rfl

theorem aliasContent_head (text : String) (h : (isTextInAliasContent text).isSome = true) :
    text.data.head? = some 'A' := by
  obtain ⟨mid, rest, h1, -⟩ := (isTextInAliasContent_iff text).mp h
  rw [h1, List.append_assoc]
  rfl

/-- An open bracket and a closed one cannot both be read from the same text. -/
theorem open_closed_exclusive (P rest mid rest' : List Char) (h1 : ∀ c ∈ rest, c ≠ ']')
    (h2 : P ++ rest = P ++ mid ++ ']' :: ':' :: rest') : False := by
  rw [List.append_assoc] at h2
  have h3 := List.append_cancel_left h2
  exact h1 ']' (by rw [h3]; simp) rfl

theorem condition_action_exclusive (text : String) (hc : (isTextInCondition text).isSome = true)
    (ha : (isTextInAction text).isSome = true) : False := by
  obtain ⟨rest, h1, h2⟩ := (isTextInCondition_iff text).mp hc
  obtain ⟨mid, rest', h3, -⟩ := (isTextInAction_iff text).mp ha
  exact open_closed_exclusive _ rest mid rest' h2 (h1.symm.trans h3)

theorem aliasName_aliasContent_exclusive (text : String)
    (hc : (isTextInAliasName text).isSome = true)
    (ha : (isTextInAliasContent text).isSome = true) : False := by
  obtain ⟨rest, h1, h2⟩ := (isTextInAliasName_iff text).mp hc
  obtain ⟨mid, rest', h3, -⟩ := (isTextInAliasContent_iff text).mp ha
  exact open_closed_exclusive _ rest mid rest' h2 (h1.symm.trans h3)

/-- At most one of the five checks holds. -/
theorem checks_count_le_one (text : String) :
    [(isTextInCondition text).isSome, (isTextInAction text).isSome,
      (isTextInAliasName text).isSome, (isTextInAliasContent text).isSome,
      (isTextAtLineStart text).isSome].count true ≤ 1 := by
  have hca := condition_action_exclusive text
  have hnn := aliasName_aliasContent_exclusive text
  have hl := lineStart_no_bracket text
  have b1 := condition_has_bracket text
  have b2 := action_has_bracket text
  have b3 := aliasName_has_bracket text
  have b4 := aliasContent_has_bracket text
  have e1 := condition_head text
  have e2 := action_head text
  have e3 := aliasName_head text
  have e4 := aliasContent_head text
  cases h1 : (isTextInCondition text).isSome <;> cases h2 : (isTextInAction text).isSome <;>
    cases h3 : (isTextInAliasName text).isSome <;>
    cases h4 : (isTextInAliasContent text).isSome <;>
    cases h5 : (isTextAtLineStart text).isSome <;>
    simp only [h1, h2, h3, h4, h5, Bool.false_eq_true, forall_true_left, false_implies,
      imp_false, not_true_eq_false] at hca hnn hl b1 b2 b3 b4 e1 e2 e3 e4 <;>
    first
    | decide
    | exact absurd b1 hl
    | exact absurd b2 hl
    | exact absurd b3 hl
    | exact absurd b4 hl
    | exact absurd (e1.symm.trans e3) (by decide)
    | exact absurd (e1.symm.trans e4) (by decide)
    | exact absurd (e2.symm.trans e3) (by decide)
    | exact absurd (e2.symm.trans e4) (by decide)

/-! ## The pattern of `getAliasValue` -/

theorem test_escape (c : Char) :
    (CharSet.cls false [('.', '.'), ('*', '*'), ('+', '+'), ('?', '?'), ('^', '^'),
      ('$', '$'), ('\x7b', '\x7b'), ('\x7d', '\x7d'), ('(', '('), (')', ')'), ('|', '|'),
      ('[', '['), (']', ']'), ('\\', '\\')]).test c = isSyntaxChar c := by
  simp only [CharSet.test, List.any_cons, List.any_nil, range_self_eq_beq, isSyntaxChar,
    Bool.or_false, Bool.or_assoc, Bool.bne_false]

theorem replaceFrom_escape (before text : List Char) :
    replaceFrom (RegExp.literal "[.*+?^$\x7b\x7d()|[\\]\\\\]") (fun m => '\\' :: m) before text 0 =
      text.flatMap escapeChar := by
  rw [literal_escape]
  induction text generalizing before with
  | nil => simp [replaceFrom, run_cat_cons, run_set_nil]
  | cons c rest ih =>
      by_cases hc : isSyntaxChar c = true
      · simp [replaceFrom, run_cat_cons, run_set_cons, test_escape, hc, run_cat_nil, ih,
          escapeChar]
      · have hc' : isSyntaxChar c = false := by simpa using hc
        simp [replaceFrom, run_cat_cons, run_set_cons, test_escape, hc', ih, escapeChar]

theorem escapeRegExp_data (name : String) :
    (escapeRegExp name).data = name.data.flatMap escapeChar :=
  replaceFrom_escape [] name.data

theorem parseLoop_append (xs ys : List Char) (st : ParseState) :
    parseLoop (xs ++ ys) st =
      match parseLoop xs st with
      | some st' => parseLoop ys st'
      | none => none := by
  induction xs generalizing st with
  | nil => rfl
  | cons c xs ih =>
      simp only [List.cons_append, parseLoop]
      cases parseStep st c with
      | none => rfl
      | some st' => exact ih st'

/-- The escaped form of a character is read back as that character. -/
theorem parseLoop_escapeChar (c : Char) (stack : List (Nat × List Re)) (cur : List Re)
    (n : Nat) :
    parseLoop (escapeChar c) ⟨stack, cur, n, none, false⟩ =
      some ⟨stack, .set (.char c) :: cur, n, none, false⟩ := by
  by_cases hc : isSyntaxChar c = true
  · simp [escapeChar, hc, parseLoop, parseStep]
  · have hc' : isSyntaxChar c = false := by simpa using hc
    have hne := hc'
    simp only [isSyntaxChar, Bool.or_eq_false_iff, beq_eq_false_iff_ne, ne_eq] at hne
    obtain ⟨⟨⟨⟨⟨⟨⟨⟨⟨⟨⟨⟨⟨e1, e2⟩, e3⟩, e4⟩, e5⟩, e6⟩, e7⟩, e8⟩, e9⟩, e10⟩, e11⟩, e12⟩, e13⟩,
      e14⟩ := hne
    simp [escapeChar, hc', parseLoop, parseStep, e1, e2, e3, e4, e5, e6, e7, e8, e9, e10,
      e11, e12, e13, e14]

/-- The escaped name is read back as the characters of the name. -/
theorem parseLoop_escaped (name : List Char) (stack : List (Nat × List Re)) (cur : List Re)
    (n : Nat) :
    parseLoop (name.flatMap escapeChar) ⟨stack, cur, n, none, false⟩ =
      some ⟨stack, (Re.chars name).reverse ++ cur, n, none, false⟩ := by
  induction name generalizing cur with
  | nil => rfl
  | cons c name ih =>
      rw [List.flatMap_cons, parseLoop_append, parseLoop_escapeChar]
      simp only [ih]
      simp [Re.chars]

theorem aliasPattern_parse (name : String) :
    parsePattern ("^Alias\\[" ++ escapeRegExp name ++ "\\]:\\s*(.*)$").data =
      some (aliasPattern name.data) := by
  have hd : ("^Alias\\[" ++ escapeRegExp name ++ "\\]:\\s*(.*)$").data =
      "^Alias\\[".data ++ (name.data.flatMap escapeChar ++ "\\]:\\s*(.*)$".data) := by
    simp [String.data_append, escapeRegExp_data]
  have hpre : parseLoop "^Alias\\[".data ⟨[], [], 1, none, false⟩ =
      some ⟨[], (Re.chars "Alias[".data).reverse ++ [.bol], 1, none, false⟩ := by
    decide
  have hsuf : ∀ cur : List Re, parseLoop "\\]:\\s*(.*)$".data ⟨[], cur, 1, none, false⟩ =
      some ⟨[], ([Re.eol, .group 1 (Re.cat [.star (.set .dot)]), .star (.set .space)] ++
        (Re.chars "]:".data).reverse) ++ cur, 2, none, false⟩ := by
    intro cur
    simp [parseLoop, parseStep, isSyntaxChar, Re.chars, Re.cat]
  unfold parsePattern
  rw [hd, parseLoop_append, hpre]
  simp only [parseLoop_append, parseLoop_escaped, hsuf]
  simp [aliasPattern, Re.chars]

theorem aliasRegExp_create (name : String) :
    RegExp.create ("^Alias\\[" ++ escapeRegExp name ++ "\\]:\\s*(.*)$") "m" =
      .ok ⟨aliasPattern name.data, true⟩ := by
  unfold RegExp.create
  rw [aliasPattern_parse]
  rfl

/-! ## The search of `getAliasValue` -/

theorem take_length_sub_dropWhile (p : Char → Bool) (l : List Char) :
    l.take (l.length - (l.dropWhile p).length) = l.takeWhile p := by
  have h := List.takeWhile_append_dropWhile p l
  have hlen : l.length = (l.takeWhile p).length + (l.dropWhile p).length := by
    have := congrArg List.length h
    rw [List.length_append] at this
    exact this.symm
  rw [hlen, Nat.add_sub_cancel]
  have h2 : List.take (l.takeWhile p).length (l.takeWhile p ++ l.dropWhile p) =
      l.takeWhile p := List.take_left' rfl
  rw [h] at h2
  exact h2

theorem atLineEnd_dropWhile_dot (b a : List Char) (k : List (Nat × List Char)) :
    MState.atLineEnd true ⟨b, a.dropWhile (CharSet.test .dot), k⟩ = true := by
  unfold MState.atLineEnd
  cases h : a.dropWhile (CharSet.test .dot) with
  | nil => rfl
  | cons c rest =>
      have hc : (List.dropWhile (CharSet.test .dot) a).head? = some c := by rw [h]; rfl
      have := List.head?_dropWhile_not (CharSet.test .dot) a
      rw [hc] at this
      simpa [CharSet.test] using this

theorem head?_flatMap_cons {α β : Type} (f : α → List β) (x : α) (xs : List α) (y : β)
    (h : (f x).head? = some y) : ((x :: xs).flatMap f).head? = some y := by
  rw [List.flatMap_cons, List.head?_append, h]
  rfl

/-- The tail of the pattern of `getAliasValue`, `\s*(.*)$` with the `m` flag: its
first result passes the longest run of spaces, captures the rest of the line there
and stops at the end of that line. -/
theorem run_aliasTail_head (b a : List Char) (k : List (Nat × List Char)) :
    (Re.run true (Re.cat [.star (.set .space), .group 1 (Re.cat [.star (.set .dot)]),
        .eol]) ⟨b, a, k⟩).head? =
      some ⟨((a.dropWhile isSpace).takeWhile (CharSet.test .dot)).reverse ++
          ((a.takeWhile isSpace).reverse ++ b),
        (a.dropWhile isSpace).dropWhile (CharSet.test .dot),
        (1, (a.dropWhile isSpace).takeWhile (CharSet.test .dot)) :: k⟩ := by
  obtain ⟨tl1, h1⟩ := head_starLoop_set true .space a.length b a k (Nat.le_refl _)
  obtain ⟨tl2, h2⟩ := head_starLoop_set true .dot (a.dropWhile isSpace).length
    ((a.takeWhile isSpace).reverse ++ b) (a.dropWhile isSpace) k (Nat.le_refl _)
  have hs : Re.run true (.star (.set .space)) ⟨b, a, k⟩ =
      ⟨(a.takeWhile isSpace).reverse ++ b, a.dropWhile isSpace, k⟩ :: tl1 := h1
  have hd : Re.run true (.star (.set .dot))
      ⟨(a.takeWhile isSpace).reverse ++ b, a.dropWhile isSpace, k⟩ =
      ⟨((a.dropWhile isSpace).takeWhile (CharSet.test .dot)).reverse ++
          ((a.takeWhile isSpace).reverse ++ b),
        (a.dropWhile isSpace).dropWhile (CharSet.test .dot), k⟩ :: tl2 := h2
  have he := atLineEnd_dropWhile_dot
    (((a.dropWhile isSpace).takeWhile (CharSet.test .dot)).reverse ++
      ((a.takeWhile isSpace).reverse ++ b)) (a.dropWhile isSpace)
    ((1, (a.dropWhile isSpace).takeWhile (CharSet.test .dot)) :: k)
  rw [run_cat_cons, hs]
  apply head?_flatMap_cons
  rw [run_cat_cons]
  have hg : Re.run true (.group 1 (Re.cat [.star (.set .dot)]))
      ⟨(a.takeWhile isSpace).reverse ++ b, a.dropWhile isSpace, k⟩ =
      (Re.run true (.star (.set .dot))
        ⟨(a.takeWhile isSpace).reverse ++ b, a.dropWhile isSpace, k⟩).map fun s' =>
        { s' with caps := (1, (a.dropWhile isSpace).take
            ((a.dropWhile isSpace).length - s'.after.length)) :: s'.caps } := by
    simp [Re.run, Re.cat, List.flatMap_singleton']
  rw [hg, hd, List.map_cons]
  apply head?_flatMap_cons
  simp only [take_length_sub_dropWhile]
  rw [run_cat_cons]
  simp [Re.run, he, run_cat_nil]

theorem run_bol_cat (m : Bool) (rs : List Re) (s : MState) :
    Re.run m (Re.cat (.bol :: rs)) s =
      if s.atLineStart m = true then Re.run m (Re.cat rs) s else [] := by
  rw [run_cat_cons]
  by_cases h : s.atLineStart m = true <;> simp [Re.run, h]

theorem mem_run_eol_multiline (s s' : MState) (h : s' ∈ Re.run true .eol s) : s' = s := by
  by_cases he : s.atLineEnd true = true
  · simpa [Re.run, he] using h
  · simp [Re.run, he] at h

/-- Every result of the tail `\s*(.*)$` carries the capture of group 1 in front. -/
theorem caps_of_mem_run_aliasTail (s s' : MState)
    (h : s' ∈ Re.run true (Re.cat [.star (.set .space), .group 1 (Re.cat [.star (.set .dot)]),
      .eol]) s) : ∃ cap, s'.caps = (1, cap) :: s.caps := by
  obtain ⟨s1, hs1, h⟩ := (mem_run_cat_cons _ _ _ _ _).mp h
  obtain ⟨pre, post, -, -, rfl⟩ := (mem_run_star_set _ _ _ _).mp hs1
  obtain ⟨s2, hs2, h⟩ := (mem_run_cat_cons _ _ _ _ _).mp h
  obtain ⟨s3, hs3, h⟩ := (mem_run_cat_cons _ _ _ _ _).mp h
  have h3 := mem_run_eol_multiline _ _ hs3
  have h4 := (mem_run_cat_nil _ _ _).mp h
  subst h3
  subst h4
  simp only [Re.run, List.mem_map] at hs2
  obtain ⟨s4, hs4, rfl⟩ := hs2
  have hs4' : s4 ∈ Re.run true (Re.cat [.star (.set .dot)])
      ⟨pre.reverse ++ s.before, post, s.caps⟩ := hs4
  obtain ⟨s5, hs5, h5⟩ := (mem_run_cat_cons _ _ _ _ _).mp hs4'
  have h6 := (mem_run_cat_nil _ _ _).mp h5
  subst h6
  obtain ⟨pre2, post2, -, -, rfl⟩ := (mem_run_star_set _ _ _ _).mp hs5
  exact ⟨_, rfl⟩

theorem aliasPattern_eq (name : List Char) :
    aliasPattern name = Re.cat (.bol :: (Re.chars ("Alias[".data ++ name ++ "]:".data) ++
      [.star (.set .space), .group 1 (Re.cat [.star (.set .dot)]), .eol])) := rfl

/-- The pattern of `getAliasValue` matches only at the start of a line, in front of
`Alias[name]:`, and every result carries the capture of group 1. -/
theorem mem_run_aliasPattern (name b a : List Char) (s' : MState)
    (h : s' ∈ Re.run true (aliasPattern name) ⟨b, a, []⟩) :
    MState.atLineStart true ⟨b, a, []⟩ = true ∧
      (∃ a', a = "Alias[".data ++ name ++ "]:".data ++ a') ∧ ∃ cap, s'.caps = [(1, cap)] := by
  rw [aliasPattern_eq, run_bol_cat] at h
  by_cases hl : MState.atLineStart true ⟨b, a, []⟩ = true
  · rw [if_pos hl] at h
    obtain ⟨a', ha', h⟩ := (mem_run_chars_iff _ _ _ _ _).mp h
    obtain ⟨cap, hcap⟩ := caps_of_mem_run_aliasTail _ _ h
    exact ⟨hl, ⟨a', ha'⟩, cap, hcap⟩
  · rw [if_neg hl] at h
    exact absurd h (List.not_mem_nil _)

/-- At the start of a line in front of `Alias[name]:` the first result of the pattern
of `getAliasValue` captures, behind the longest run of spaces, the rest of the line
reached there. -/
theorem run_aliasPattern_head (name b a' : List Char)
    (hl : MState.atLineStart true ⟨b, "Alias[".data ++ name ++ "]:".data ++ a', []⟩ = true) :
    ∃ s', (Re.run true (aliasPattern name)
        ⟨b, "Alias[".data ++ name ++ "]:".data ++ a', []⟩).head? = some s' ∧
      s'.caps = [(1, (a'.dropWhile isSpace).takeWhile (CharSet.test .dot))] := by
  rw [aliasPattern_eq, run_bol_cat, if_pos hl, run_chars_append, run_aliasTail_head]
  exact ⟨_, rfl, rfl⟩

/-- What a successful search returns: the first result at the first index where the
pattern matches. -/
theorem execFrom_eq_some (re : RegExp) (before after : List Char) (m : Match)
    (h : execFrom re before after = some m) :
    ∃ pre post s', after = pre ++ post ∧
      (re.pattern.run re.multiline ⟨pre.reverse ++ before, post, []⟩).head? = some s' ∧
      m = ⟨(pre.reverse ++ before).length, post.take (post.length - s'.after.length),
        s'.caps⟩ ∧
      ∀ pre1 post1 x rest1, pre = pre1 ++ x :: rest1 → post1 = x :: rest1 ++ post →
        re.pattern.run re.multiline ⟨pre1.reverse ++ before, post1, []⟩ = [] := by
  induction after generalizing before with
  | nil =>
      cases hrun : (re.pattern.run re.multiline ⟨before, [], []⟩).head? with
      | some s1 =>
          simp only [execFrom, hrun, Option.some.injEq] at h
          refine ⟨[], [], s1, rfl, hrun, ?_, ?_⟩
          · rw [← h]; simp
          · intro pre1 post1 x rest1 hp
            simp at hp
      | none => simp [execFrom, hrun] at h
  | cons c rest ih =>
      cases hrun : (re.pattern.run re.multiline ⟨before, c :: rest, []⟩).head? with
      | some s1 =>
          simp only [execFrom, hrun, Option.some.injEq] at h
          refine ⟨[], c :: rest, s1, rfl, hrun, ?_, ?_⟩
          · rw [← h]; simp
          · intro pre1 post1 x rest1 hp
            simp at hp
      | none =>
          simp only [execFrom, hrun] at h
          obtain ⟨pre, post, s', h1, h2, h3, h4⟩ := ih (c :: before) h
          refine ⟨c :: pre, post, s', by rw [h1]; rfl, by simpa using h2, by simpa using h3, ?_⟩
          intro pre1 post1 x rest1 hp hq
          cases pre1 with
          | nil =>
              simp only [List.nil_append, List.cons.injEq] at hp
              obtain ⟨rfl, rfl⟩ := hp
              subst hq
              simp only [List.reverse_nil, List.nil_append, List.cons_append, ← h1]
              exact List.head?_eq_none_iff.mp hrun
          | cons y pre1 =>
              simp only [List.cons_append, List.cons.injEq] at hp
              obtain ⟨rfl, hp⟩ := hp
              have := h4 pre1 post1 x rest1 hp hq
              simpa using this

/-! ## `indexOf`, the cut at the comment, and `trim` -/

theorem indexOf_none_not_infix (pat : List Char) (hp : pat ≠ []) (text : List Char)
    (h : indexOf pat text = none) : ¬ pat <:+: text := by
  induction text with
  | nil =>
      intro hinf
      exact hp (List.infix_nil.mp hinf)
  | cons c rest ih =>
      unfold indexOf at h
      by_cases hpre : pat.isPrefixOf (c :: rest) = true
      · simp [hpre] at h
      · simp only [hpre, Bool.false_eq_true, if_false, Option.map_eq_none'] at h
        intro hinf
        rcases List.infix_cons_iff.mp hinf with h1 | h1
        · exact hpre (List.isPrefixOf_iff_prefix.mpr h1)
        · exact ih h h1

theorem indexOf_some_not_infix_take (pat : List Char) (hp : pat ≠ []) (text : List Char)
    (i : Nat) (h : indexOf pat text = some i) : ¬ pat <:+: text.take i := by
  induction text generalizing i with
  | nil =>
      intro hinf
      rw [List.take_nil] at hinf
      exact hp (List.infix_nil.mp hinf)
  | cons c rest ih =>
      unfold indexOf at h
      by_cases hpre : pat.isPrefixOf (c :: rest) = true
      · simp only [hpre, if_true, Option.some.injEq] at h
        subst h
        intro hinf
        exact hp (List.infix_nil.mp hinf)
      · simp only [hpre, Bool.false_eq_true, if_false, Option.map_eq_some'] at h
        obtain ⟨j, hj, rfl⟩ := h
        intro hinf
        rw [List.take_succ_cons] at hinf
        rcases List.infix_cons_iff.mp hinf with h1 | h1
        · apply hpre
          apply List.isPrefixOf_iff_prefix.mpr
          exact h1.trans ((List.prefix_cons_inj c).mpr (List.take_prefix j rest))
        · exact ih j hj h1

theorem cutAtComment_no_comment (value : List Char) :
    ¬ "//".data <:+: cutAtComment value := by
  unfold cutAtComment
  cases h : indexOf "//".data value with
  | none => exact indexOf_none_not_infix _ (by decide) _ h
  | some i => exact indexOf_some_not_infix_take _ (by decide) _ _ h

theorem trim_eq_rdropWhile (text : List Char) :
    trim text = (text.dropWhile isSpace).rdropWhile isSpace := rfl

theorem trim_within (text : List Char) : trim text <:+: text := by
  rw [trim_eq_rdropWhile]
  exact (List.rdropWhile_prefix _ _).isInfix.trans (List.dropWhile_suffix _).isInfix

theorem trim_head (text : List Char) (c : Char) (h : (trim text).head? = some c) :
    isSpace c = false := by
  rw [trim_eq_rdropWhile] at h
  have hpre := List.rdropWhile_prefix isSpace (text.dropWhile isSpace)
  obtain ⟨t, ht⟩ := hpre
  cases hr : List.rdropWhile isSpace (text.dropWhile isSpace) with
  | nil => rw [hr] at h; simp at h
  | cons x xs =>
      rw [hr] at h ht
      simp only [List.head?_cons, Option.some.injEq] at h
      subst h
      have h2 := List.head?_dropWhile_not isSpace text
      rw [← ht] at h2
      simpa using h2

theorem trim_getLast (text : List Char) (c : Char) (h : (trim text).getLast? = some c) :
    isSpace c = false := by
  unfold trim at h
  rw [List.getLast?_reverse] at h
  have h2 := List.head?_dropWhile_not isSpace (text.dropWhile isSpace).reverse
  rw [h] at h2
  simpa using h2

theorem dropWhile_of_all {p : Char → Bool} (ws rest : List Char) (h : ∀ c ∈ ws, p c = true) :
    (ws ++ rest).dropWhile p = rest.dropWhile p := by
  induction ws with
  | nil => rfl
  | cons c ws ih =>
      rw [List.cons_append, List.dropWhile_cons, if_pos (h c (List.mem_cons_self _ _))]
      exact ih fun x hx => h x (List.mem_cons_of_mem _ hx)

theorem rdropWhile_append_space (x : List Char) :
    (x ++ [' ']).rdropWhile isSpace = x.rdropWhile isSpace := by
  rw [List.rdropWhile_concat]
  simp [show isSpace ' ' = true by decide]

/-- In `x ++ " //" ++ y` with no `//` in `x`, the first `//` stands right behind the
space. -/
theorem indexOf_comment_after (x y : List Char) (h : ¬ "//".data <:+: x) :
    indexOf "//".data (x ++ ' ' :: '/' :: '/' :: y) = some (x.length + 1) := by
  induction x with
  | nil => simp [indexOf, List.isPrefixOf]
  | cons a x ih =>
      have hx : ¬ "//".data <:+: x := fun hinf => h (List.infix_cons hinf)
      have hnp : List.isPrefixOf "//".data (a :: x ++ ' ' :: '/' :: '/' :: y) = false := by
        cases x with
        | nil =>
            by_cases ha : '/' = a <;> simp [List.isPrefixOf, ha]
        | cons b x =>
            by_cases ha : '/' = a
            · by_cases hb : '/' = b
              · subst ha hb
                exact absurd ⟨[], x, rfl⟩ h
              · simp [List.isPrefixOf, ha, hb]
            · simp [List.isPrefixOf, ha]
      rw [List.cons_append] at hnp ⊢
      unfold indexOf
      rw [hnp]
      simp [ih hx]

/-! ## `getAliasValue` -/

/-- For a name that is not empty, `getAliasValue` is the search with the pattern
`aliasPattern`, the cut at the comment and the trim. -/
theorem getAliasValue_eq (document : TextDocument) (name : String) (hn : name ≠ "") :
    getAliasValue document name =
      match jsMatch (document.getText none) ⟨aliasPattern name.data, true⟩ with
      | some m =>
          match m.capture 1 with
          | none => .error .typeError
          | some value => .ok (some ⟨trim (cutAtComment value)⟩)
      | none => .ok none := by
  unfold getAliasValue
  rw [if_neg hn]
  simp only [aliasRegExp_create]
  rfl

/-- What a match of the pattern of `getAliasValue` is: the text holds `Alias[name]:`
at the start of a line, and group 1 is, behind the longest run of spaces that
follows, the rest of the line reached there. -/
theorem jsMatch_aliasPattern_some (text name : String) (m : Match)
    (h : jsMatch text ⟨aliasPattern name.data, true⟩ = some m) :
    ∃ pre rest, text.data = pre ++ ("Alias[".data ++ name.data ++ "]:".data ++ rest) ∧
      MState.atLineStart true ⟨pre.reverse, [], []⟩ = true ∧
      m.capture 1 = some ((rest.dropWhile isSpace).takeWhile (CharSet.test .dot)) := by
  obtain ⟨pre, post, s', h1, h2, h3, -⟩ := execFrom_eq_some _ _ _ _ h
  simp only [List.append_nil] at h2 h3
  have hmem : s' ∈ Re.run true (aliasPattern name.data) ⟨pre.reverse, post, []⟩ :=
    List.mem_of_mem_head? h2
  obtain ⟨hl, ⟨a', ha'⟩, -⟩ := mem_run_aliasPattern _ _ _ _ hmem
  subst ha'
  obtain ⟨s'', hs'', hcaps⟩ := run_aliasPattern_head name.data pre.reverse a' hl
  have hh : (Re.run true (aliasPattern name.data)
      ⟨pre.reverse, "Alias[".data ++ name.data ++ "]:".data ++ a', []⟩).head? = some s' := h2
  rw [hs''] at hh
  have hs : s'' = s' := Option.some.inj hh
  subst hs
  refine ⟨pre, a', h1, hl, ?_⟩
  rw [h3]
  simp [Match.capture, hcaps, List.lookup]

theorem getAliasValue_ok (document : TextDocument) (name : String) :
    ∃ r, getAliasValue document name = .ok r := by
  by_cases hn : name = ""
  · exact ⟨none, by simp [getAliasValue, hn]⟩
  · rw [getAliasValue_eq document name hn]
    cases hm : jsMatch (document.getText none) ⟨aliasPattern name.data, true⟩ with
    | none => exact ⟨none, rfl⟩
    | some m =>
        obtain ⟨pre, rest, -, -, hc⟩ := jsMatch_aliasPattern_some _ _ _ hm
        simp only [hc]
        exact ⟨_, rfl⟩

theorem atLineStart_cons (x : Char) (before a : List Char) (k : List (Nat × List Char)) :
    MState.atLineStart true ⟨x :: before, a, k⟩ = isLineTerminator x := by
  simp [MState.atLineStart]

/-- A match of the pattern of `getAliasValue` needs a line that begins with
`Alias[name]:`. -/
theorem someLineBeginsWith_of_split (p before pre post : List Char)
    (h1 : MState.atLineStart true ⟨pre.reverse ++ before, [], []⟩ = true) (h2 : p <+: post) :
    someLineBeginsWith p (MState.atLineStart true ⟨before, [], []⟩) (pre ++ post) = true := by
  induction pre generalizing before with
  | nil =>
      simp only [List.reverse_nil, List.nil_append] at h1 ⊢
      rw [h1]
      cases post with
      | nil =>
          have : p = [] := List.prefix_nil.mp h2
          simp [someLineBeginsWith, this]
      | cons c rest =>
          simp [someLineBeginsWith, List.isPrefixOf_iff_prefix.mpr h2]
  | cons x pre ih =>
      have h1' : MState.atLineStart true ⟨pre.reverse ++ x :: before, [], []⟩ = true := by
        simpa using h1
      have := ih (x :: before) h1'
      rw [atLineStart_cons] at this
      simp [someLineBeginsWith, this]

theorem jsMatch_aliasPattern_none (text name : String)
    (h : someLineBeginsWith ("Alias[" ++ name ++ "]:").data true text.data = false) :
    jsMatch text ⟨aliasPattern name.data, true⟩ = none := by
  cases hm : jsMatch text ⟨aliasPattern name.data, true⟩ with
  | none => rfl
  | some m =>
      obtain ⟨pre, rest, h1, h2, -⟩ := jsMatch_aliasPattern_some _ _ _ hm
      have hp : ("Alias[" ++ name ++ "]:").data <+:
          "Alias[".data ++ name.data ++ "]:".data ++ rest :=
        ⟨rest, by simp [String.data_append]⟩
      have h3 := someLineBeginsWith_of_split _ [] pre _ (by simpa using h2) hp
      rw [← h1] at h3
      have h4 : MState.atLineStart true ⟨[], [], []⟩ = true := rfl
      rw [h4, h] at h3
      exact absurd h3 (by decide)

/-- The cut and the trim of the capture of a line `v // c`. -/
theorem trim_cut_capture (v c : List Char) (hv : ¬ "//".data <:+: v) :
    trim (cutAtComment ((v ++ ' ' :: '/' :: '/' :: ' ' :: c).dropWhile isSpace)) = trim v := by
  rw [List.dropWhile_append]
  cases hw : v.dropWhile isSpace with
  | nil =>
      have h1 : List.dropWhile isSpace (' ' :: '/' :: '/' :: ' ' :: c) =
          '/' :: '/' :: ' ' :: c := by
        simp [List.dropWhile_cons, show isSpace ' ' = true by decide,
          show isSpace '/' = false by decide]
      simp only [List.isEmpty_nil, if_true, h1]
      have h2 : cutAtComment ('/' :: '/' :: ' ' :: c) = [] := by
        simp [cutAtComment, indexOf, List.isPrefixOf]
      rw [h2, trim_eq_rdropWhile, trim_eq_rdropWhile, hw]
      rfl
  | cons x w =>
      have hx : isSpace x = false := by
        have := List.head?_dropWhile_not isSpace v
        rw [hw] at this
        simpa using this
      have hno : ¬ "//".data <:+: x :: w := by
        intro hinf
        apply hv
        rw [← hw] at hinf
        exact hinf.trans (List.dropWhile_suffix _).isInfix
      simp only [List.isEmpty_cons, Bool.false_eq_true, if_false]
      have h2 : cutAtComment (x :: w ++ ' ' :: '/' :: '/' :: ' ' :: c) = x :: w ++ [' '] := by
        unfold cutAtComment
        rw [indexOf_comment_after _ _ hno]
        simp only
        have : (x :: w ++ ' ' :: '/' :: '/' :: ' ' :: c) =
            (x :: w ++ [' ']) ++ '/' :: '/' :: ' ' :: c := by simp
        rw [this]
        exact List.take_left' (by simp)
      rw [h2, trim_eq_rdropWhile, trim_eq_rdropWhile, hw]
      have h3 : List.dropWhile isSpace (x :: w ++ [' ']) = x :: w ++ [' '] := by
        simp [List.dropWhile_cons, hx]
      rw [h3]
      exact rdropWhile_append_space (x :: w)

theorem takeWhile_dot_of_no_terminator (l : List Char)
    (h : ∀ x ∈ l, isLineTerminator x = false) : l.takeWhile (CharSet.test .dot) = l := by
  apply List.takeWhile_eq_self_iff.mpr
  intro x hx
  simp [CharSet.test, h x hx]

/-- The value of the binding line `Alias[n]: v // c`. -/
theorem getAliasValue_of_line (document : TextDocument) (n v c : String) (hn : n ≠ "")
    (hv : ∀ x ∈ v.data, isLineTerminator x = false)
    (hc : ∀ x ∈ c.data, isLineTerminator x = false) (hvc : ¬ "//".data <:+: v.data)
    (hdoc : document.getText none = "Alias[" ++ n ++ "]: " ++ v ++ " // " ++ c) :
    getAliasValue document n = .ok (some ⟨trim v.data⟩) := by
  rw [getAliasValue_eq document n hn, hdoc]
  have hd : ("Alias[" ++ n ++ "]: " ++ v ++ " // " ++ c).data =
      "Alias[".data ++ n.data ++ "]:".data ++
        (' ' :: (v.data ++ ' ' :: '/' :: '/' :: ' ' :: c.data)) := by
    simp [String.data_append]
  obtain ⟨s', hs', hcaps⟩ := run_aliasPattern_head n.data []
    (' ' :: (v.data ++ ' ' :: '/' :: '/' :: ' ' :: c.data)) rfl
  have hm := execFrom_of_head ⟨aliasPattern n.data, true⟩ []
    ("Alias[".data ++ n.data ++ "]:".data ++
      (' ' :: (v.data ++ ' ' :: '/' :: '/' :: ' ' :: c.data))) s' hs'
  unfold jsMatch
  rw [hd, hm]
  have hdrop : List.dropWhile isSpace (' ' :: (v.data ++ ' ' :: '/' :: '/' :: ' ' :: c.data)) =
      List.dropWhile isSpace (v.data ++ ' ' :: '/' :: '/' :: ' ' :: c.data) := by
    rw [List.dropWhile_cons, if_pos (by decide)]
  have hall : ∀ x ∈ List.dropWhile isSpace (v.data ++ ' ' :: '/' :: '/' :: ' ' :: c.data),
      isLineTerminator x = false := by
    intro x hx
    have hx' := (List.dropWhile_suffix isSpace).subset hx
    rcases List.mem_append.mp hx' with h | h
    · exact hv x h
    · simp only [List.mem_cons] at h
      rcases h with rfl | rfl | rfl | rfl | h
      · decide
      · decide
      · decide
      · decide
      · exact hc x h
  simp only [Match.capture, hcaps, List.lookup, beq_self_eq_true, hdrop,
    takeWhile_dot_of_no_terminator _ hall, trim_cut_capture _ _ hvc]

/-! ## The claims -/

/-- C1: a text in front of the cursor that contains `//` passes the comment check,
is given the tag `None` by the cascade of the completion provider and by the order of
the spec, and makes both providers return `null` without touching the hint data,
whatever the document, the position and the hint data are. -/
theorem comment_suppresses_assistance {σ C H : Type} (hintDataManager : HintDataManager σ C H)
    (st : σ) (document : TextDocument) (position : Position)
    (h : "//".data <:+: (getTextBeforeCursor document position).data) :
    (hasTextComment (getTextBeforeCursor document position)).isSome = true ∧
      completionContext (getTextBeforeCursor document position) = .None ∧
      classifySpec (getTextBeforeCursor document position) = .None ∧
      provideCompletionItems hintDataManager st document position = (none, st) ∧
      provideHover hintDataManager st document position = .ok (none, st) := by
  have hc := (hasTextComment_iff _).mpr h
  refine ⟨hc, ?_, ?_, ?_, ?_⟩
  · simp [completionContext, hc]
  · simp [classifySpec, hc]
  · simp [provideCompletionItems, hc]
  · unfold provideHover
    simp only [hc, if_true]
    split <;> rfl

theorem comment_suppresses_assistance_witness :
    "//".data <:+:
        (getTextBeforeCursor (oneLineDocument "ItemDisplay[CLVL]: // RED" none) ⟨0, 23⟩).data ∧
      provideCompletionItems sampleHints "" (oneLineDocument "ItemDisplay[CLVL]: // RED" none)
        ⟨0, 23⟩ = (none, "") ∧
      provideHover sampleHints "" (oneLineDocument "ItemDisplay[CLVL]: // RED" none)
        ⟨0, 23⟩ = .ok (none, "") :=
  have h := comment_suppresses_assistance sampleHints ""
    (oneLineDocument "ItemDisplay[CLVL]: // RED" none) ⟨0, 23⟩
    ⟨"ItemDisplay[CLVL]: ".data, " R".data, by decide⟩
  ⟨⟨"ItemDisplay[CLVL]: ".data, " R".data, by decide⟩, h.2.2.2.1, h.2.2.2.2⟩

theorem closed_bracket_data (P s t : String) :
    (P ++ s ++ "]:" ++ t).data = P.data ++ s.data ++ ']' :: ':' :: t.data := by
  simp [String.data_append]

/-- C2: for `s` without `]` and any `t`, the text `ItemDisplay[s]:t` passes
`isTextInAction` and not `isTextInCondition`, and the text `ItemDisplay[s` passes
`isTextInCondition` and not `isTextInAction`; when the text has no `//`, the cascade of
the source and the order of the spec give `Action` to the former and `Condition` to
the latter. -/
theorem itemDisplay_bracket_classified (s t : String) (hs : ']' ∉ s.data) :
    ((isTextInAction ("ItemDisplay[" ++ s ++ "]:" ++ t)).isSome = true ∧
      (isTextInCondition ("ItemDisplay[" ++ s ++ "]:" ++ t)).isSome = false ∧
      (¬ "//".data <:+: ("ItemDisplay[" ++ s ++ "]:" ++ t).data →
        completionContext ("ItemDisplay[" ++ s ++ "]:" ++ t) = .Action ∧
        classifySpec ("ItemDisplay[" ++ s ++ "]:" ++ t) = .Action)) ∧
    ((isTextInCondition ("ItemDisplay[" ++ s)).isSome = true ∧
      (isTextInAction ("ItemDisplay[" ++ s)).isSome = false ∧
      (¬ "//".data <:+: ("ItemDisplay[" ++ s).data →
        completionContext ("ItemDisplay[" ++ s) = .Condition ∧
        classifySpec ("ItemDisplay[" ++ s) = .Condition)) := by
  have hne : ∀ c ∈ s.data, c ≠ ']' := fun c hc h => hs (h ▸ hc)
  have ha : (isTextInAction ("ItemDisplay[" ++ s ++ "]:" ++ t)).isSome = true :=
    (isTextInAction_iff _).mpr ⟨s.data, t.data, closed_bracket_data _ _ _, hne⟩
  have hc : (isTextInCondition ("ItemDisplay[" ++ s)).isSome = true :=
    (isTextInCondition_iff _).mpr ⟨s.data, String.data_append _ _, hne⟩
  have ha' : (isTextInCondition ("ItemDisplay[" ++ s ++ "]:" ++ t)).isSome = false := by
    cases h : (isTextInCondition ("ItemDisplay[" ++ s ++ "]:" ++ t)).isSome
    · rfl
    · exact (condition_action_exclusive _ h ha).elim
  have hc' : (isTextInAction ("ItemDisplay[" ++ s)).isSome = false := by
    cases h : (isTextInAction ("ItemDisplay[" ++ s)).isSome
    · rfl
    · exact (condition_action_exclusive _ hc h).elim
  refine ⟨⟨ha, ha', ?_⟩, ⟨hc, hc', ?_⟩⟩
  · intro hno
    have hcm : (hasTextComment ("ItemDisplay[" ++ s ++ "]:" ++ t)).isSome = false := by
      cases h : (hasTextComment ("ItemDisplay[" ++ s ++ "]:" ++ t)).isSome
      · rfl
      · exact absurd ((hasTextComment_iff _).mp h) hno
    simp [completionContext, classifySpec, hcm, ha, ha']
  · intro hno
    have hcm : (hasTextComment ("ItemDisplay[" ++ s)).isSome = false := by
      cases h : (hasTextComment ("ItemDisplay[" ++ s)).isSome
      · rfl
      · exact absurd ((hasTextComment_iff _).mp h) hno
    simp [completionContext, classifySpec, hcm, hc, hc']

theorem itemDisplay_bracket_classified_witness :
    ']' ∉ "foo".data ∧ ¬ "//".data <:+: ("ItemDisplay[" ++ "foo" ++ "]:" ++ "").data ∧
      ¬ "//".data <:+: ("ItemDisplay[" ++ "foo").data ∧
      completionContext ("ItemDisplay[" ++ "foo" ++ "]:" ++ "") = .Action ∧
      classifySpec ("ItemDisplay[" ++ "foo" ++ "]:" ++ "") = .Action ∧
      completionContext ("ItemDisplay[" ++ "foo") = .Condition ∧
      classifySpec ("ItemDisplay[" ++ "foo") = .Condition :=
  have h := itemDisplay_bracket_classified "foo" "" (by decide)
  have h1 : ¬ "//".data <:+: ("ItemDisplay[" ++ "foo" ++ "]:" ++ "").data := by decide
  have h2 : ¬ "//".data <:+: ("ItemDisplay[" ++ "foo").data := by decide
  ⟨by decide, h1, h2, (h.1.2.2 h1).1, (h.1.2.2 h1).2, (h.2.2.2 h2).1, (h.2.2.2 h2).2⟩

/-- C3: for `s` without `]` and any `t`, the text `Alias[s]:t` passes
`isTextInAliasContent` and not `isTextInAliasName`, and the text `Alias[s` passes
`isTextInAliasName` and not `isTextInAliasContent`; when the text has no `//`, the
cascade of the source and the order of the spec give `AliasContent` to the former and
`AliasName` to the latter. -/
theorem alias_bracket_classified (s t : String) (hs : ']' ∉ s.data) :
    ((isTextInAliasContent ("Alias[" ++ s ++ "]:" ++ t)).isSome = true ∧
      (isTextInAliasName ("Alias[" ++ s ++ "]:" ++ t)).isSome = false ∧
      (¬ "//".data <:+: ("Alias[" ++ s ++ "]:" ++ t).data →
        completionContext ("Alias[" ++ s ++ "]:" ++ t) = .AliasContent ∧
        classifySpec ("Alias[" ++ s ++ "]:" ++ t) = .AliasContent)) ∧
    ((isTextInAliasName ("Alias[" ++ s)).isSome = true ∧
      (isTextInAliasContent ("Alias[" ++ s)).isSome = false ∧
      (¬ "//".data <:+: ("Alias[" ++ s).data →
        completionContext ("Alias[" ++ s) = .AliasName ∧
        classifySpec ("Alias[" ++ s) = .AliasName)) := by
  have hne : ∀ c ∈ s.data, c ≠ ']' := fun c hc h => hs (h ▸ hc)
  have ha : (isTextInAliasContent ("Alias[" ++ s ++ "]:" ++ t)).isSome = true :=
    (isTextInAliasContent_iff _).mpr ⟨s.data, t.data, closed_bracket_data _ _ _, hne⟩
  have hc : (isTextInAliasName ("Alias[" ++ s)).isSome = true :=
    (isTextInAliasName_iff _).mpr ⟨s.data, String.data_append _ _, hne⟩
  have ha' : (isTextInAliasName ("Alias[" ++ s ++ "]:" ++ t)).isSome = false := by
    cases h : (isTextInAliasName ("Alias[" ++ s ++ "]:" ++ t)).isSome
    · rfl
    · exact (aliasName_aliasContent_exclusive _ h ha).elim
  have hc' : (isTextInAliasContent ("Alias[" ++ s)).isSome = false := by
    cases h : (isTextInAliasContent ("Alias[" ++ s)).isSome
    · rfl
    · exact (aliasName_aliasContent_exclusive _ hc h).elim
  have notI : ∀ text : String, text.data.head? = some 'A' →
      (isTextInCondition text).isSome = false ∧ (isTextInAction text).isSome = false := by
    intro text hA
    constructor
    · cases h : (isTextInCondition text).isSome
      · rfl
      · exact absurd ((condition_head text h).symm.trans hA) (by decide)
    · cases h : (isTextInAction text).isSome
      · rfl
      · exact absurd ((action_head text h).symm.trans hA) (by decide)
  have n1 := notI _ (aliasContent_head _ ha)
  have n2 := notI _ (aliasName_head _ hc)
  refine ⟨⟨ha, ha', ?_⟩, ⟨hc, hc', ?_⟩⟩
  · intro hno
    have hcm : (hasTextComment ("Alias[" ++ s ++ "]:" ++ t)).isSome = false := by
      cases h : (hasTextComment ("Alias[" ++ s ++ "]:" ++ t)).isSome
      · rfl
      · exact absurd ((hasTextComment_iff _).mp h) hno
    simp [completionContext, classifySpec, hcm, ha, ha', n1.1, n1.2]
  · intro hno
    have hcm : (hasTextComment ("Alias[" ++ s)).isSome = false := by
      cases h : (hasTextComment ("Alias[" ++ s)).isSome
      · rfl
      · exact absurd ((hasTextComment_iff _).mp h) hno
    simp [completionContext, classifySpec, hcm, hc, hc', n2.1, n2.2]

theorem alias_bracket_classified_witness :
    ']' ∉ "bar".data ∧ ¬ "//".data <:+: ("Alias[" ++ "bar" ++ "]:" ++ "").data ∧
      ¬ "//".data <:+: ("Alias[" ++ "bar").data ∧
      completionContext ("Alias[" ++ "bar" ++ "]:" ++ "") = .AliasContent ∧
      classifySpec ("Alias[" ++ "bar" ++ "]:" ++ "") = .AliasContent ∧
      completionContext ("Alias[" ++ "bar") = .AliasName ∧
      classifySpec ("Alias[" ++ "bar") = .AliasName :=
  have h := alias_bracket_classified "bar" "" (by decide)
  have h1 : ¬ "//".data <:+: ("Alias[" ++ "bar" ++ "]:" ++ "").data := by decide
  have h2 : ¬ "//".data <:+: ("Alias[" ++ "bar").data := by decide
  ⟨by decide, h1, h2, (h.1.2.2 h1).1, (h.1.2.2 h1).2, (h.2.2.2 h2).1, (h.2.2.2 h2).2⟩

theorem isSome_eq_false_of_not {α : Type} (o : Option α) (h : ¬ o.isSome = true) :
    o.isSome = false := by
  simpa using h

/-- A text of spaces followed by letters contains neither `/` nor `[`. -/
theorem lineStart_shape_no_char (text : List Char) (x : Char) (hx1 : isSpace x = false)
    (hx2 : isAsciiLetter x = false)
    (h : (∀ c ∈ text, isSpace c = true) ∨
      ∃ ws w, text = ws ++ w ∧ (∀ c ∈ ws, isSpace c = true) ∧ w ≠ [] ∧
        ∀ c ∈ w, isAsciiLetter c = true) : x ∉ text := by
  intro hmem
  rcases h with h1 | ⟨ws, w, h1, h2, -, h4⟩
  · have := h1 _ hmem
    rw [hx1] at this
    exact absurd this (by decide)
  · rw [h1] at hmem
    rcases List.mem_append.mp hmem with hm | hm
    · have := h2 _ hm
      rw [hx1] at this
      exact absurd this (by decide)
    · have := h4 _ hm
      rw [hx2] at this
      exact absurd this (by decide)

theorem no_comment_of_no_slash (text : String) (h : '/' ∉ text.data) :
    (hasTextComment text).isSome = false := by
  apply isSome_eq_false_of_not
  intro hc
  have hinf := (hasTextComment_iff text).mp hc
  exact h (hinf.subset (by decide))

/-- When `a` is not in `x`, the text `x ++ [a]` starts with `y ++ [a]` only for `y = x`. -/
theorem append_singleton_split {x y r : List Char} {a : Char} (ha : a ∉ x)
    (h : x ++ [a] = y ++ a :: r) : x = y ∧ r = [] := by
  rcases List.append_eq_append_iff.mp h with ⟨a', h1, h2⟩ | ⟨c', h1, h2⟩
  · cases a' with
    | nil =>
        simp only [List.nil_append, List.cons.injEq, true_and] at h2
        exact ⟨by simpa using h1.symm, h2.symm⟩
    | cons d a' =>
        simp only [List.cons_append, List.cons.injEq] at h2
        have := h2.2
        simp at this
  · cases c' with
    | nil =>
        simp only [List.nil_append, List.cons.injEq, true_and] at h2
        exact ⟨by simpa using h1, h2⟩
    | cons d c' =>
        simp only [List.cons_append, List.cons.injEq] at h2
        exact absurd (by rw [h1, h2.1]; simp) ha

/-- C4 (amended): a text made of spaces only, or of spaces followed by one or more
ASCII letters, passes `isTextAtLineStart` and none of the four bracket checks, and is
given `LineStart` by the cascade of the source and by the order of the spec; with `[`
appended it is given `None`, unless the text is exactly `ItemDisplay` or `Alias`. -/
theorem lineStart_texts_classified (text : String)
    (h : (∀ c ∈ text.data, isSpace c = true) ∨
      ∃ ws w, text.data = ws ++ w ∧ (∀ c ∈ ws, isSpace c = true) ∧ w ≠ [] ∧
        ∀ c ∈ w, isAsciiLetter c = true) :
    ((isTextAtLineStart text).isSome = true ∧ (isTextInCondition text).isSome = false ∧
      (isTextInAction text).isSome = false ∧ (isTextInAliasName text).isSome = false ∧
      (isTextInAliasContent text).isSome = false ∧ completionContext text = .LineStart ∧
      classifySpec text = .LineStart) ∧
    (text ≠ "ItemDisplay" → text ≠ "Alias" →
      completionContext (text ++ "[") = .None ∧ classifySpec (text ++ "[") = .None) := by
  have hl : (isTextAtLineStart text).isSome = true := (isTextAtLineStart_iff text).mpr h
  have hb : '[' ∉ text.data := lineStart_shape_no_char _ _ (by decide) (by decide) h
  have hs : '/' ∉ text.data := lineStart_shape_no_char _ _ (by decide) (by decide) h
  have h1 : (isTextInCondition text).isSome = false :=
    isSome_eq_false_of_not _ fun hc => hb (condition_has_bracket text hc)
  have h2 : (isTextInAction text).isSome = false :=
    isSome_eq_false_of_not _ fun hc => hb (action_has_bracket text hc)
  have h3 : (isTextInAliasName text).isSome = false :=
    isSome_eq_false_of_not _ fun hc => hb (aliasName_has_bracket text hc)
  have h4 : (isTextInAliasContent text).isSome = false :=
    isSome_eq_false_of_not _ fun hc => hb (aliasContent_has_bracket text hc)
  have h0 := no_comment_of_no_slash text hs
  refine ⟨⟨hl, h1, h2, h3, h4, ?_, ?_⟩, ?_⟩
  · simp [completionContext, h0, h1, h2, h3, h4, hl]
  · simp [classifySpec, h0, h1, h2, h3, h4, hl]
  · intro hI hA
    have hd : (text ++ "[").data = text.data ++ ['['] := String.data_append _ _
    have g0 : (hasTextComment (text ++ "[")).isSome = false := by
      apply no_comment_of_no_slash
      rw [hd]
      intro hm
      rcases List.mem_append.mp hm with hm | hm
      · exact hs hm
      · exact absurd hm (by decide)
    have g1 : (isTextInCondition (text ++ "[")).isSome = false := by
      apply isSome_eq_false_of_not
      intro hc
      obtain ⟨rest, e, -⟩ := (isTextInCondition_iff _).mp hc
      rw [hd] at e
      have e' : text.data ++ ['['] = "ItemDisplay".data ++ '[' :: rest := e
      exact hI (String.ext (append_singleton_split hb e').1)
    have g2 : (isTextInAction (text ++ "[")).isSome = false := by
      apply isSome_eq_false_of_not
      intro hc
      obtain ⟨mid, rest, e, -⟩ := (isTextInAction_iff _).mp hc
      rw [hd] at e
      have e' : text.data ++ ['['] = "ItemDisplay".data ++ '[' :: (mid ++ ']' :: ':' :: rest) := by
        rw [e]; simp
      exact hI (String.ext (append_singleton_split hb e').1)
    have g3 : (isTextInAliasName (text ++ "[")).isSome = false := by
      apply isSome_eq_false_of_not
      intro hc
      obtain ⟨rest, e, -⟩ := (isTextInAliasName_iff _).mp hc
      rw [hd] at e
      have e' : text.data ++ ['['] = "Alias".data ++ '[' :: rest := e
      exact hA (String.ext (append_singleton_split hb e').1)
    have g4 : (isTextInAliasContent (text ++ "[")).isSome = false := by
      apply isSome_eq_false_of_not
      intro hc
      obtain ⟨mid, rest, e, -⟩ := (isTextInAliasContent_iff _).mp hc
      rw [hd] at e
      have e' : text.data ++ ['['] = "Alias".data ++ '[' :: (mid ++ ']' :: ':' :: rest) := by
        rw [e]; simp
      exact hA (String.ext (append_singleton_split hb e').1)
    have g5 : (isTextAtLineStart (text ++ "[")).isSome = false := by
      apply isSome_eq_false_of_not
      intro hc
      apply lineStart_no_bracket _ hc
      rw [hd]
      simp
    simp [completionContext, classifySpec, g0, g1, g2, g3, g4, g5]

theorem lineStart_texts_classified_witness :
    (∃ ws w, "abc".data = ws ++ w ∧ (∀ c ∈ ws, isSpace c = true) ∧ w ≠ [] ∧
        ∀ c ∈ w, isAsciiLetter c = true) ∧
      completionContext "abc" = .LineStart ∧ completionContext ("abc" ++ "[") = .None :=
  have hw : ∃ ws w, "abc".data = ws ++ w ∧ (∀ c ∈ ws, isSpace c = true) ∧ w ≠ [] ∧
      ∀ c ∈ w, isAsciiLetter c = true := ⟨[], "abc".data, rfl, by decide, by decide, by decide⟩
  have h := lineStart_texts_classified "abc" (Or.inr hw)
  ⟨hw, h.1.2.2.2.2.2.1, (h.2 (by decide) (by decide)).1⟩

/-- C4 as stated fails: `ItemDisplay` is a text of letters only, and with `[` appended
the cascade of the source and the order of the spec give `Condition`, not `None`. -/
theorem lineStart_append_bracket_counterexample :
    (∀ c ∈ "ItemDisplay".data, isAsciiLetter c = true) ∧
      completionContext "ItemDisplay" = .LineStart ∧
      completionContext ("ItemDisplay" ++ "[") = .Condition ∧
      classifySpec ("ItemDisplay" ++ "[") = .Condition := by
  decide

/-- C5 (amended): `isTextAtLineStart` holds exactly for the texts made of spaces only
(the empty text among them) and the texts that match `^\s*[A-Za-z]+$`, which are the
spaces followed by one or more ASCII letters; the cascade of the source and the order
of the spec give `LineStart` only to such texts. -/
theorem lineStart_exactly (text : String) :
    ((isTextAtLineStart text).isSome = true ↔
      (∀ c ∈ text.data, isSpace c = true) ∨
        (jsMatch text (RegExp.literal "^\\s*[A-Za-z]+$")).isSome = true) ∧
    ((jsMatch text (RegExp.literal "^\\s*[A-Za-z]+$")).isSome = true ↔
      ∃ ws w, text.data = ws ++ w ∧ (∀ c ∈ ws, isSpace c = true) ∧ w ≠ [] ∧
        ∀ c ∈ w, isAsciiLetter c = true) ∧
    (completionContext text = .LineStart →
      (∀ c ∈ text.data, isSpace c = true) ∨
        (jsMatch text (RegExp.literal "^\\s*[A-Za-z]+$")).isSome = true) ∧
    (classifySpec text = .LineStart →
      (∀ c ∈ text.data, isSpace c = true) ∨
        (jsMatch text (RegExp.literal "^\\s*[A-Za-z]+$")).isSome = true) := by
  have hiff : (isTextAtLineStart text).isSome = true ↔
      (∀ c ∈ text.data, isSpace c = true) ∨
        (jsMatch text (RegExp.literal "^\\s*[A-Za-z]+$")).isSome = true := by
    unfold isTextAtLineStart
    rw [Option.isSome_or, Bool.or_eq_true, blank_iff]
  refine ⟨hiff, partialWord_iff text, ?_, ?_⟩
  · intro h
    apply hiff.mp
    unfold completionContext at h
    split_ifs at h with h0 h1 h2 h3 h4 h5
    exact h5
  · intro h
    apply hiff.mp
    unfold classifySpec at h
    split_ifs at h with h0 h1 h2 h3 h4 h5
    exact h5

theorem lineStart_exactly_witness :
    completionContext " ab" = .LineStart ∧
      ((∀ c ∈ " ab".data, isSpace c = true) ∨
        (jsMatch " ab" (RegExp.literal "^\\s*[A-Za-z]+$")).isSome = true) :=
  ⟨by decide, (lineStart_exactly " ab").2.2.1 (by decide)⟩

/-- C5 as stated fails: the text of three spaces passes `isTextAtLineStart` and is
given `LineStart`, yet it is not empty and does not match `^\s*[A-Za-z]+$`. -/
theorem lineStart_blank_counterexample :
    (isTextAtLineStart "   ").isSome = true ∧ completionContext "   " = .LineStart ∧
      "   " ≠ "" ∧ (jsMatch "   " (RegExp.literal "^\\s*[A-Za-z]+$")).isSome = false := by
  decide

/-- The completion provider returns what belongs to the tag selected by its cascade. -/
theorem provideCompletionItems_eq {σ C H : Type} (hintDataManager : HintDataManager σ C H)
    (st : σ) (document : TextDocument) (position : Position) :
    provideCompletionItems hintDataManager st document position =
      if (hasTextComment (getTextBeforeCursor document position)).isSome then (none, st)
      else
        (completionsFor hintDataManager (hintDataManager.init st document.languageId)
          (document.getText (document.getWordRangeAtPosition position))
          (completionContext (getTextBeforeCursor document position)),
          hintDataManager.init st document.languageId) := by
  simp only [provideCompletionItems, completionContext]
  split_ifs <;> simp_all [completionsFor]

theorem completionContext_eq_classifySpec (text : String) :
    completionContext text = classifySpec text := by
  have hca := condition_action_exclusive text
  have hnn := aliasName_aliasContent_exclusive text
  unfold completionContext classifySpec
  cases h0 : (hasTextComment text).isSome <;> cases h1 : (isTextInCondition text).isSome <;>
    cases h2 : (isTextInAction text).isSome <;>
    cases h3 : (isTextInAliasName text).isSome <;>
    cases h4 : (isTextInAliasContent text).isSome <;>
    simp only [h1, h2, h3, h4, Bool.false_eq_true, forall_true_left, false_implies,
      imp_false, not_true_eq_false, if_true, if_false] at hca hnn ⊢

/-- C6: for every text the tag selected by the cascade of the completion provider
(`Condition` before `Action`, `AliasName` before `AliasContent`) is the tag of the
precedence order of the spec (closed brackets before open ones); and the provider
itself returns, for a text without `//`, what belongs to the tag of the spec. -/
theorem cascade_agrees_with_spec_order (text : String) :
    completionContext text = classifySpec text ∧
    ∀ {σ C H : Type} (hintDataManager : HintDataManager σ C H) (st : σ)
      (document : TextDocument) (position : Position),
      getTextBeforeCursor document position = text →
      (hasTextComment text).isSome = false →
      provideCompletionItems hintDataManager st document position =
        (completionsFor hintDataManager (hintDataManager.init st document.languageId)
          (document.getText (document.getWordRangeAtPosition position)) (classifySpec text),
          hintDataManager.init st document.languageId) := by
  refine ⟨completionContext_eq_classifySpec text, ?_⟩
  intro σ C H hintDataManager st document position ht hc
  rw [provideCompletionItems_eq, ht, hc, completionContext_eq_classifySpec]
  rfl

/-- The witness of C6: in `ItemDisplay[CLVL]: RED` with the cursor behind `RED`, the
provider returns the action keywords, the list of the tag `Action` of the spec. -/
theorem cascade_agrees_with_spec_order_witness :
    classifySpec "ItemDisplay[CLVL]: RED" = .Action ∧
      provideCompletionItems sampleHints ""
        (oneLineDocument "ItemDisplay[CLVL]: RED" (some ⟨⟨0, 19⟩, ⟨0, 22⟩⟩)) ⟨0, 22⟩ =
        (some "action keywords", "pd2") :=
  ⟨by decide,
    ((cascade_agrees_with_spec_order "ItemDisplay[CLVL]: RED").2 sampleHints ""
      (oneLineDocument "ItemDisplay[CLVL]: RED" (some ⟨⟨0, 19⟩, ⟨0, 22⟩⟩)) ⟨0, 22⟩
      (by decide) (by decide)).trans (by decide)⟩

/-- C7: at most one of the five checks holds for a text; a text for which none
holds, and a text that contains `//`, is given `None`; and for a text without `//`
each of the five tags is given exactly when its check holds, so that the tag of a
text is determined. -/
theorem checks_mutually_exclusive (text : String) :
    [(isTextInCondition text).isSome, (isTextInAction text).isSome,
        (isTextInAliasName text).isSome, (isTextInAliasContent text).isSome,
        (isTextAtLineStart text).isSome].count true ≤ 1 ∧
      ((isTextInCondition text).isSome = false → (isTextInAction text).isSome = false →
        (isTextInAliasName text).isSome = false → (isTextInAliasContent text).isSome = false →
        (isTextAtLineStart text).isSome = false → completionContext text = .None) ∧
      ("//".data <:+: text.data → completionContext text = .None) ∧
      (¬ "//".data <:+: text.data →
        (completionContext text = .Condition ↔ (isTextInCondition text).isSome = true) ∧
        (completionContext text = .Action ↔ (isTextInAction text).isSome = true) ∧
        (completionContext text = .AliasName ↔ (isTextInAliasName text).isSome = true) ∧
        (completionContext text = .AliasContent ↔ (isTextInAliasContent text).isSome = true) ∧
        (completionContext text = .LineStart ↔ (isTextAtLineStart text).isSome = true)) := by
  have hcount := checks_count_le_one text
  refine ⟨hcount, ?_, ?_, ?_⟩
  · intro h1 h2 h3 h4 h5
    simp [completionContext, h1, h2, h3, h4, h5]
  · intro h
    simp [completionContext, (hasTextComment_iff text).mpr h]
  · intro h
    have h0 : (hasTextComment text).isSome = false :=
      isSome_eq_false_of_not _ fun hc => h ((hasTextComment_iff text).mp hc)
    unfold completionContext
    revert hcount
    cases (isTextInCondition text).isSome <;> cases (isTextInAction text).isSome <;>
      cases (isTextInAliasName text).isSome <;> cases (isTextInAliasContent text).isSome <;>
      cases (isTextAtLineStart text).isSome <;> simp [h0]

theorem checks_mutually_exclusive_witness :
    ¬ "//".data <:+: "Alias[bar".data ∧ (isTextInAliasName "Alias[bar").isSome = true ∧
      completionContext "Alias[bar" = .AliasName ∧
      "//".data <:+: "a//b".data ∧ completionContext "a//b" = .None :=
  have h1 : ¬ "//".data <:+: "Alias[bar".data := by decide
  have h2 : (isTextInAliasName "Alias[bar").isSome = true := by decide
  have h3 : "//".data <:+: "a//b".data := by decide
  ⟨h1, h2, (((checks_mutually_exclusive "Alias[bar").2.2.2 h1).2.2.1).mpr h2, h3,
    (checks_mutually_exclusive "a//b").2.2.1 h3⟩

/-- A lowercase ASCII letter. -/
theorem not_keyword_of_lower (c : Char) (h : 'a'.toNat ≤ c.toNat ∧ c.toNat ≤ 'z'.toNat) :
    isKeywordChar c = false := by
  have h1 : 97 ≤ c.toNat := h.1
  have h2 : c.toNat ≤ 122 := h.2
  have e1 : c ≠ '_' := by
    rintro rfl
    exact absurd h1 (by decide)
  have e2 : c ≠ '-' := by
    rintro rfl
    exact absurd h1 (by decide)
  have n1 : ¬ c.toNat ≤ 90 := by omega
  have n2 : ¬ c.toNat ≤ 57 := by omega
  simp [isKeywordChar, e1, e2, n1, n2]

/-- C8: `isTextPossibleKeyword` holds exactly for the words that are not empty and
made of uppercase ASCII letters, digits, underscores and hyphens; it fails for the
empty word and for every word with a lowercase ASCII letter; it holds for `FOO_BAR-1`
and fails for `foo`. -/
theorem keyword_exactly (word : String) :
    ((isTextPossibleKeyword word).isSome = true ↔
      word.data ≠ [] ∧ ∀ c ∈ word.data, isKeywordChar c = true) ∧
    (isTextPossibleKeyword "").isSome = false ∧
    ((∃ c ∈ word.data, 'a'.toNat ≤ c.toNat ∧ c.toNat ≤ 'z'.toNat) →
      (isTextPossibleKeyword word).isSome = false) ∧
    (isTextPossibleKeyword "FOO_BAR-1").isSome = true ∧
    (isTextPossibleKeyword "foo").isSome = false := by
  refine ⟨isTextPossibleKeyword_iff word, by decide, ?_, by decide, by decide⟩
  rintro ⟨c, hc, hl⟩
  apply isSome_eq_false_of_not
  intro hk
  have := ((isTextPossibleKeyword_iff word).mp hk).2 c hc
  rw [not_keyword_of_lower c hl] at this
  exact absurd this (by decide)

theorem keyword_exactly_witness :
    (∃ c ∈ "FOo".data, 'a'.toNat ≤ c.toNat ∧ c.toNat ≤ 'z'.toNat) ∧
      (isTextPossibleKeyword "FOo").isSome = false :=
  have h : ∃ c ∈ "FOo".data, 'a'.toNat ≤ c.toNat ∧ c.toNat ≤ 'z'.toNat :=
    ⟨'o', by decide, by decide⟩
  ⟨h, (keyword_exactly "FOo").2.2.1 h⟩

/-- What holds of every value returned by `getAliasValue`: it is the capture of group
1 of the match, cut at its first `//` and then trimmed, where the capture is what
follows `Alias[name]:` and the longest run of spaces behind it, up to the end of the
line reached there (which need not be the line of the binding).  The value contains
no `//` and neither starts nor ends with a space.  For a name that is not empty and
`v`, `c` free of line terminators with `v` free of `//`, the value of the name in the
document `Alias[name]: v // c` is `v` trimmed. -/
theorem aliasValue_cut_and_trimmed (document : TextDocument) (name : String) :
    (∀ value : String, getAliasValue document name = .ok (some value) →
      (∃ regex m pre rest,
        RegExp.create ("^Alias\\[" ++ escapeRegExp name ++ "\\]:\\s*(.*)$") "m" = .ok regex ∧
        jsMatch (document.getText none) regex = some m ∧
        (document.getText none).data =
          pre ++ ("Alias[".data ++ name.data ++ "]:".data ++ rest) ∧
        m.capture 1 = some ((rest.dropWhile isSpace).takeWhile (CharSet.test .dot)) ∧
        value.data =
          trim (cutAtComment ((rest.dropWhile isSpace).takeWhile (CharSet.test .dot)))) ∧
      ¬ "//".data <:+: value.data ∧
      (∀ c, value.data.head? = some c → isSpace c = false) ∧
      (∀ c, value.data.getLast? = some c → isSpace c = false)) ∧
    (∀ v c : String, name ≠ "" → (∀ x ∈ v.data, isLineTerminator x = false) →
      (∀ x ∈ c.data, isLineTerminator x = false) → ¬ "//".data <:+: v.data →
      document.getText none = "Alias[" ++ name ++ "]: " ++ v ++ " // " ++ c →
      getAliasValue document name = .ok (some ⟨trim v.data⟩)) := by
  refine ⟨?_, fun v c hn hv hc hvc hdoc => getAliasValue_of_line document name v c hn hv hc hvc hdoc⟩
  intro value h
  have hn : name ≠ "" := by
    intro hn
    simp [getAliasValue, hn] at h
  rw [getAliasValue_eq document name hn] at h
  cases hm : jsMatch (document.getText none) ⟨aliasPattern name.data, true⟩ with
  | none => simp [hm] at h
  | some m =>
      obtain ⟨pre, rest, h1, -, h3⟩ := jsMatch_aliasPattern_some _ _ _ hm
      simp only [hm, h3, Except.ok.injEq, Option.some.injEq] at h
      have hval : value.data =
          trim (cutAtComment ((rest.dropWhile isSpace).takeWhile (CharSet.test .dot))) := by
        rw [← h]
      refine ⟨⟨_, m, pre, rest, aliasRegExp_create name, hm, h1, h3, hval⟩, ?_, ?_, ?_⟩
      · rw [hval]
        intro hinf
        exact cutAtComment_no_comment _ (hinf.trans (trim_within _))
      · rw [hval]
        exact trim_head _
      · rw [hval]
        exact trim_getLast _

theorem aliasValue_cut_and_trimmed_witness :
    getAliasValue (oneLineDocument "Alias[X]: some_value // comment" none) "X" =
        .ok (some "some_value") ∧
      ¬ "//".data <:+: "some_value".data :=
  have h := (aliasValue_cut_and_trimmed
    (oneLineDocument "Alias[X]: some_value // comment" none) "X").2 "some_value" "comment"
    (by decide) (by decide) (by decide) (by decide) (by decide)
  have h' : getAliasValue (oneLineDocument "Alias[X]: some_value // comment" none) "X" =
      .ok (some "some_value") := h.trans (by decide)
  ⟨h', ((aliasValue_cut_and_trimmed
    (oneLineDocument "Alias[X]: some_value // comment" none) "X").1 "some_value" h').2.1⟩

/-- C10: `getAliasValue` never throws; it returns `null` when the name is empty, and
for a name that is not empty it returns `null` when no line of the document begins
with `Alias[name]:`. -/
theorem aliasValue_absent (document : TextDocument) (name : String) :
    (∃ r, getAliasValue document name = .ok r) ∧
    (name = "" → getAliasValue document name = .ok none) ∧
    (name ≠ "" →
      someLineBeginsWith ("Alias[" ++ name ++ "]:").data true (document.getText none).data =
        false →
      getAliasValue document name = .ok none) := by
  refine ⟨getAliasValue_ok document name, ?_, ?_⟩
  · intro hn
    simp [getAliasValue, hn]
  · intro hn h
    rw [getAliasValue_eq document name hn, jsMatch_aliasPattern_none _ _ h]

theorem aliasValue_absent_witness :
    "Y" ≠ "" ∧
      someLineBeginsWith ("Alias[" ++ "Y" ++ "]:").data true
        ((oneLineDocument "Alias[X]: some_value" none).getText none).data = false ∧
      getAliasValue (oneLineDocument "Alias[X]: some_value" none) "Y" = .ok none ∧
      getAliasValue (oneLineDocument "Alias[X]: some_value" none) "" = .ok none :=
  ⟨by decide, by decide,
    (aliasValue_absent (oneLineDocument "Alias[X]: some_value" none) "Y").2.2 (by decide)
      (by decide),
    (aliasValue_absent (oneLineDocument "Alias[X]: some_value" none) "").2.1 rfl⟩

/-! ## `getAliasValue` as the value of the first binding line -/

theorem aliasPrefix_data (name : String) :
    ("Alias[" ++ name ++ "]:").data = "Alias[".data ++ name.data ++ "]:".data := by
  simp [String.data_append]

theorem aliasPrefix_isEmpty (name : List Char) :
    ("Alias[".data ++ name ++ "]:".data).isEmpty = false := rfl

/-- Where no line begins with `Alias[name]:` at the current index, the pattern of
`getAliasValue` fails there. -/
theorem run_aliasPattern_nil (name b a : List Char)
    (h : ¬ (MState.atLineStart true ⟨b, a, []⟩ = true ∧
      ("Alias[".data ++ name ++ "]:".data).isPrefixOf a = true)) :
    Re.run true (aliasPattern name) ⟨b, a, []⟩ = [] := by
  cases hrun : Re.run true (aliasPattern name) ⟨b, a, []⟩ with
  | nil => rfl
  | cons s' tl =>
      exfalso
      have hmem : s' ∈ Re.run true (aliasPattern name) ⟨b, a, []⟩ := by
        rw [hrun]
        exact List.mem_cons_self _ _
      obtain ⟨hl, ⟨a', ha'⟩, -⟩ := mem_run_aliasPattern _ _ _ _ hmem
      apply h
      refine ⟨hl, ?_⟩
      rw [ha']
      exact List.isPrefixOf_iff_prefix.mpr ⟨a', rfl⟩

theorem atLineStart_after (b a : List Char) (k : List (Nat × List Char)) :
    MState.atLineStart true ⟨b, a, k⟩ = MState.atLineStart true ⟨b, [], []⟩ := rfl

/-- The search with the pattern of `getAliasValue` stops at the first line that
begins with `Alias[name]:` and captures what follows it there; without such a line
it fails. -/
theorem execFrom_aliasPattern (name before after : List Char) :
    match (bindingRests ("Alias[".data ++ name ++ "]:".data)
        (MState.atLineStart true ⟨before, [], []⟩) after).head? with
    | some rest =>
        ∃ m, execFrom ⟨aliasPattern name, true⟩ before after = some m ∧
          m.capture 1 = some ((rest.dropWhile isSpace).takeWhile (CharSet.test .dot))
    | none => execFrom ⟨aliasPattern name, true⟩ before after = none := by
  induction after generalizing before with
  | nil =>
      have hno : ¬ (MState.atLineStart true ⟨before, [], []⟩ = true ∧
          ("Alias[".data ++ name ++ "]:".data).isPrefixOf [] = true) := by
        rintro ⟨-, h⟩
        exact absurd h (by simp [List.isPrefixOf])
      have hrun := run_aliasPattern_nil name before [] hno
      simp only [bindingRests, aliasPrefix_isEmpty, Bool.and_false, Bool.false_eq_true,
        if_false, List.head?_nil]
      simp [execFrom, hrun]
  | cons c rest ih =>
      by_cases hcond : MState.atLineStart true ⟨before, [], []⟩ = true ∧
          ("Alias[".data ++ name ++ "]:".data).isPrefixOf (c :: rest) = true
      · obtain ⟨hl, hp⟩ := hcond
        obtain ⟨a', ha'⟩ := List.isPrefixOf_iff_prefix.mp hp
        have hdrop : (c :: rest).drop ("Alias[".data ++ name ++ "]:".data).length = a' := by
          rw [← ha']
          exact List.drop_left' rfl
        have hl' : MState.atLineStart true
            ⟨before, "Alias[".data ++ name ++ "]:".data ++ a', []⟩ = true := hl
        obtain ⟨s', hs', hcaps⟩ := run_aliasPattern_head name before a' hl'
        have hm := execFrom_of_head ⟨aliasPattern name, true⟩ before
          ("Alias[".data ++ name ++ "]:".data ++ a') s' hs'
        rw [ha'] at hm
        simp only [bindingRests, hl, hp, Bool.and_self, if_true, List.singleton_append,
          List.head?_cons, hdrop]
        exact ⟨_, hm, by simp [Match.capture, hcaps, List.lookup]⟩
      · have hrun := run_aliasPattern_nil name before (c :: rest) hcond
        have hc' : (MState.atLineStart true ⟨before, [], []⟩ &&
            ("Alias[".data ++ name ++ "]:".data).isPrefixOf (c :: rest)) = false := by
          cases h1 : MState.atLineStart true ⟨before, [], []⟩
          · rfl
          · cases h2 : ("Alias[".data ++ name ++ "]:".data).isPrefixOf (c :: rest)
            · rfl
            · exact absurd ⟨h1, h2⟩ hcond
        have := ih (c :: before)
        rw [atLineStart_cons] at this
        simp only [bindingRests, hc', Bool.false_eq_true, if_false, List.nil_append]
        simpa [execFrom, hrun] using this

/-- For a name that is not empty, `getAliasValue` returns what it makes of the text
behind the first line that begins with `Alias[name]:`, and `null` without such a
line. -/
theorem getAliasValue_eq_first (document : TextDocument) (name : String) (hn : name ≠ "") :
    getAliasValue document name =
      .ok ((bindingRests ("Alias[" ++ name ++ "]:").data true
        (document.getText none).data).head?.map aliasValueOf) := by
  rw [getAliasValue_eq document name hn, aliasPrefix_data]
  have h := execFrom_aliasPattern name.data [] (document.getText none).data
  have hstart : MState.atLineStart true ⟨[], [], []⟩ = true := rfl
  rw [hstart] at h
  unfold jsMatch
  cases hb : (bindingRests ("Alias[".data ++ name.data ++ "]:".data) true
      (document.getText none).data).head? with
  | none =>
      rw [hb] at h
      simp only at h
      rw [h]
      rfl
  | some rest =>
      rw [hb] at h
      obtain ⟨m, hm, hc⟩ := h
      rw [hm]
      simp only [hc]
      rfl

theorem someLineBeginsWith_eq (p : List Char) (atStart : Bool) (text : List Char) :
    someLineBeginsWith p atStart text = !(bindingRests p atStart text).isEmpty := by
  induction text generalizing atStart with
  | nil =>
      cases h : (atStart && p.isEmpty) <;> simp [someLineBeginsWith, bindingRests, h]
  | cons c rest ih =>
      cases h : (atStart && p.isPrefixOf (c :: rest)) <;>
        simp [someLineBeginsWith, bindingRests, h, ih]

theorem cutAtComment_cons_space (c : Char) (t : List Char) (hc : isSpace c = true) :
    cutAtComment (c :: t) = c :: cutAtComment t := by
  have hne : ('/' == c) = false := by
    cases h : ('/' == c)
    · rfl
    · have : c = '/' := (beq_iff_eq.mp h).symm
      rw [this] at hc
      exact absurd hc (by decide)
  have hp : List.isPrefixOf "//".data (c :: t) = false := by
    simp [List.isPrefixOf, hne]
  unfold cutAtComment
  rw [indexOf, hp]
  cases indexOf "//".data t with
  | none => rfl
  | some i => rfl

theorem cutAtComment_append_spaces (ws y : List Char) (h : ∀ c ∈ ws, isSpace c = true) :
    cutAtComment (ws ++ y) = ws ++ cutAtComment y := by
  induction ws with
  | nil => rfl
  | cons c ws ih =>
      rw [List.cons_append, cutAtComment_cons_space c _ (h c (List.mem_cons_self _ _)),
        ih fun x hx => h x (List.mem_cons_of_mem _ hx)]
      rfl

theorem trim_append_spaces (ws y : List Char) (h : ∀ c ∈ ws, isSpace c = true) :
    trim (ws ++ y) = trim y := by
  rw [trim_eq_rdropWhile, trim_eq_rdropWhile, dropWhile_of_all ws y h]

theorem takeWhile_append_stop (p : Char → Bool) (a b : List Char) (ha : ∀ c ∈ a, p c = true)
    (hb : ∀ c, b.head? = some c → p c = false) : (a ++ b).takeWhile p = a := by
  induction a with
  | nil =>
      cases b with
      | nil => rfl
      | cons x b => simp [List.takeWhile_cons, hb x rfl]
  | cons x a ih =>
      rw [List.cons_append, List.takeWhile_cons, if_pos (ha x (List.mem_cons_self _ _)),
        ih fun c hc => ha c (List.mem_cons_of_mem _ hc)]

/-- When the line behind `Alias[name]:` holds something else than spaces, the value
is made of that line alone: the line, cut at the first `//` and trimmed. -/
theorem aliasValueOf_same_line (rest : List Char)
    (h : ∃ c ∈ firstLine rest, isSpace c = false) :
    aliasValueOf rest = ⟨trim (cutAtComment (firstLine rest))⟩ := by
  have hsplit : firstLine rest ++ rest.dropWhile (fun c => !isLineTerminator c) = rest :=
    List.takeWhile_append_dropWhile _ rest
  have hline : ∀ c ∈ firstLine rest, (!isLineTerminator c) = true := by
    intro c hc
    unfold firstLine at hc
    exact List.mem_takeWhile_imp (p := fun c => !isLineTerminator c) hc
  have htail : ∀ c, (rest.dropWhile fun c => !isLineTerminator c).head? = some c →
      (!isLineTerminator c) = false := by
    intro c hc
    have := List.head?_dropWhile_not (fun c => !isLineTerminator c) rest
    rw [hc] at this
    simpa using this
  have hws : firstLine rest = (firstLine rest).takeWhile isSpace ++
      (firstLine rest).dropWhile isSpace := (List.takeWhile_append_dropWhile _ _).symm
  have hall : ∀ c ∈ (firstLine rest).takeWhile isSpace, isSpace c = true := fun c hc =>
    List.mem_takeWhile_imp hc
  cases hy : (firstLine rest).dropWhile isSpace with
  | nil =>
      obtain ⟨c, hc, hcs⟩ := h
      have := (List.dropWhile_eq_nil_iff.mp hy) c hc
      rw [hcs] at this
      exact absurd this (by decide)
  | cons x y =>
      have hx : isSpace x = false := by
        have := List.head?_dropWhile_not isSpace (firstLine rest)
        rw [hy] at this
        simpa using this
      have hxy : ∀ c ∈ x :: y, (!isLineTerminator c) = true := by
        intro c hc
        apply hline
        rw [hws, hy]
        exact List.mem_append_right _ hc
      have hrest : rest = (firstLine rest).takeWhile isSpace ++
          ((x :: y) ++ rest.dropWhile (fun c => !isLineTerminator c)) := by
        conv_lhs => rw [← hsplit, hws, hy]
        simp
      have hdrop : rest.dropWhile isSpace =
          (x :: y) ++ rest.dropWhile (fun c => !isLineTerminator c) := by
        conv_lhs => rw [hrest]
        rw [dropWhile_of_all _ _ hall]
        simp [List.dropWhile_cons, hx]
      have hcap : (rest.dropWhile isSpace).takeWhile (CharSet.test .dot) = x :: y := by
        rw [hdrop]
        exact takeWhile_append_stop _ _ _ hxy htail
      unfold aliasValueOf
      rw [hcap]
      congr 1
      conv_rhs => rw [hws, hy, cutAtComment_append_spaces _ _ hall, trim_append_spaces _ _ hall]

/-! ## The claims on alias resolution -/

/-- C11: for a name that is not empty, `new RegExp` reads the pattern built in
`getAliasValue` with every character of the name standing for itself (also the
characters `. * + ? ^ $ { } ( ) | [ ] \`), and `getAliasValue` returns a value exactly
when some line of the document begins with the characters `Alias[name]:`. -/
theorem alias_name_matched_literally (document : TextDocument) (name : String)
    (hn : name ≠ "") :
    RegExp.create ("^Alias\\[" ++ escapeRegExp name ++ "\\]:\\s*(.*)$") "m" =
        .ok ⟨Re.cat (.bol :: (Re.chars ("Alias[".data ++ name.data ++ "]:".data) ++
          [.star (.set .space), .group 1 (Re.cat [.star (.set .dot)]), .eol])), true⟩ ∧
      ((∃ value, getAliasValue document name = .ok (some value)) ↔
        someLineBeginsWith ("Alias[" ++ name ++ "]:").data true
          (document.getText none).data = true) := by
  refine ⟨aliasRegExp_create name, ?_⟩
  rw [getAliasValue_eq_first document name hn, someLineBeginsWith_eq]
  cases hb : bindingRests ("Alias[" ++ name ++ "]:").data true (document.getText none).data with
  | nil => simp
  | cons first others => simp

/-- The witness of C11: the name `A.B` has the value `v` in the document
`Alias[A.B]: v` and none in the document `Alias[AxB]: v`. -/
theorem alias_name_matched_literally_witness :
    "A.B" ≠ "" ∧
      (∃ value, getAliasValue (oneLineDocument "Alias[A.B]: v" none) "A.B" =
        .ok (some value)) ∧
      getAliasValue (oneLineDocument "Alias[A.B]: v" none) "A.B" = .ok (some "v") ∧
      (¬ ∃ value, getAliasValue (oneLineDocument "Alias[AxB]: v" none) "A.B" =
        .ok (some value)) ∧
      getAliasValue (oneLineDocument "Alias[AxB]: v" none) "A.B" = .ok none :=
  ⟨by decide,
    (alias_name_matched_literally (oneLineDocument "Alias[A.B]: v" none) "A.B"
      (by decide)).2.mpr (by decide),
    by decide,
    fun h => absurd ((alias_name_matched_literally (oneLineDocument "Alias[AxB]: v" none)
      "A.B" (by decide)).2.mp h) (by decide),
    by decide⟩

/-- C12 (amended): the first match wins.  For a name that is not empty and a document
in which `first` is what follows `Alias[name]:` on the first line that begins with
it: when that line holds something else than spaces behind the colon, `getAliasValue`
returns the rest of that line, cut at the first `//` and trimmed, whatever lines
follow. -/
theorem aliasValue_first_binding_wins (document : TextDocument) (name : String)
    (first : List Char) (others : List (List Char)) (hn : name ≠ "")
    (h : bindingRests ("Alias[" ++ name ++ "]:").data true (document.getText none).data =
      first :: others)
    (hc : ∃ c ∈ firstLine first, isSpace c = false) :
    getAliasValue document name = .ok (some ⟨trim (cutAtComment (firstLine first))⟩) := by
  rw [getAliasValue_eq_first document name hn, h, ← aliasValueOf_same_line first hc]
  rfl

/-- The witness of C12 (amended): in a document with two binding lines for `X` the
value is the one of the first line. -/
theorem aliasValue_first_binding_wins_witness :
    "X" ≠ "" ∧
      bindingRests ("Alias[" ++ "X" ++ "]:").data true
          ((linesDocument ["Alias[X]: one // c", "Alias[X]: two"] none).getText none).data =
        [" one // c\nAlias[X]: two".data, " two".data] ∧
      (∃ c ∈ firstLine " one // c\nAlias[X]: two".data, isSpace c = false) ∧
      getAliasValue (linesDocument ["Alias[X]: one // c", "Alias[X]: two"] none) "X" =
        .ok (some "one") :=
  ⟨by decide, by decide, ⟨'o', by decide, by decide⟩,
    (aliasValue_first_binding_wins (linesDocument ["Alias[X]: one // c", "Alias[X]: two"] none)
      "X" " one // c\nAlias[X]: two".data [" two".data] (by decide) (by decide)
      ⟨'o', by decide, by decide⟩).trans (by decide)⟩

/-- C12 as stated fails: the document has two lines that begin with `Alias[X]:`, the
last of them has the value `b`, and `getAliasValue` returns `a`, the value of the
first. -/
theorem aliasValue_last_binding_counterexample :
    (bindingRests "Alias[X]:".data true
        ((linesDocument ["Alias[X]: a", "Alias[X]: b"] none).getText none).data).length = 2 ∧
      (bindingRests "Alias[X]:".data true
        ((linesDocument ["Alias[X]: a", "Alias[X]: b"] none).getText none).data).getLast? =
        some " b".data ∧
      aliasValueOf " b".data = "b" ∧
      getAliasValue (linesDocument ["Alias[X]: a", "Alias[X]: b"] none) "X" = .ok (some "a") := by
  decide

/-- C9 fails on the code, by the defect of C13: in the document of the two lines
`Alias[X]:` followed by three spaces and `Alias[Y]: other // note`, the rest of the
binding line of `X` is three spaces, which cut at `//` and trimmed is the empty text,
and `getAliasValue` returns `Alias[Y]: other`, taken from the next line. -/
theorem aliasValue_not_from_binding_line :
    (linesDocument ["Alias[X]:   ", "Alias[Y]: other // note"] none).getText none =
        "Alias[X]:   \nAlias[Y]: other // note" ∧
      bindingRests "Alias[X]:".data true
          ((linesDocument ["Alias[X]:   ", "Alias[Y]: other // note"] none).getText none).data =
        ["   \nAlias[Y]: other // note".data] ∧
      firstLine "   \nAlias[Y]: other // note".data = "   ".data ∧
      trim (cutAtComment "   ".data) = [] ∧
      getAliasValue (linesDocument ["Alias[X]:   ", "Alias[Y]: other // note"] none) "X" =
        .ok (some "Alias[Y]: other") := by
  decide

/-- C13 fails on the code: in the document of the two lines `Alias[X]:` and
`ItemDisplay[CLVL]: RED` the binding line holds nothing behind the colon, and
`getAliasValue` returns the text of the next line, not the empty string. -/
theorem aliasValue_taken_from_next_line :
    (linesDocument ["Alias[X]:", "ItemDisplay[CLVL]: RED"] none).getText none =
        "Alias[X]:\nItemDisplay[CLVL]: RED" ∧
      bindingRests "Alias[X]:".data true
          ((linesDocument ["Alias[X]:", "ItemDisplay[CLVL]: RED"] none).getText none).data =
        ["\nItemDisplay[CLVL]: RED".data] ∧
      firstLine "\nItemDisplay[CLVL]: RED".data = [] ∧
      getAliasValue (linesDocument ["Alias[X]:", "ItemDisplay[CLVL]: RED"] none) "X" =
        .ok (some "ItemDisplay[CLVL]: RED") := by
  decide

/-! ## The providers -/

/-- The check `char.match(/\w/)` of the hover provider holds exactly when the text has
a word character. -/
theorem wordCheck_iff (char : String) :
    (jsMatch char (RegExp.literal "\\w")).isSome = true ↔
      ∃ c ∈ char.data, isWordChar c = true := by
  unfold jsMatch
  rw [literal_word, execFrom_isSome_iff]
  constructor
  · rintro ⟨pre, post, h1, h2⟩
    obtain ⟨s', hs'⟩ := List.exists_mem_of_ne_nil _ h2
    obtain ⟨s1, hs1, -⟩ := (mem_run_cat_cons _ _ _ _ _).mp hs'
    cases post with
    | nil => simp [Re.run] at hs1
    | cons c post =>
        by_cases hc : isWordChar c = true
        · exact ⟨c, by rw [h1]; simp, hc⟩
        · simp [Re.run, CharSet.test, hc] at hs1
  · rintro ⟨c, hc, hw⟩
    obtain ⟨pre, post, hsplit⟩ := List.append_of_mem hc
    refine ⟨pre, c :: post, hsplit, ?_⟩
    simp [run_cat_cons, Re.run, CharSet.test, hw, run_cat_nil]

theorem hover_fallback_eq {σ H : Type} (hover : Option H) (st : σ)
    (r : Except JsError (Option String)) :
    (match hover with
      | some item => (.ok (some (.hint item), st) : Except JsError (Option (HoverResult H) × σ))
      | none =>
          match r with
          | .error e => .error e
          | .ok aliasValue =>
              match aliasValue with
              | some value => if value = "" then .ok (none, st) else .ok (some (.alias value), st)
              | none => .ok (none, st)) =
      match hover with
      | some item => .ok (some (.hint item), st)
      | none =>
          match r with
          | .error e => .error e
          | .ok aliasValue => .ok (aliasHover aliasValue, st) := by
  cases hover with
  | some item => rfl
  | none =>
      cases r with
      | error e => rfl
      | ok aliasValue =>
          cases aliasValue with
          | none => rfl
          | some value =>
              by_cases hv : value = ""
              · simp [aliasHover, hv]
              · simp [aliasHover, hv]

/-- The hover provider, with its three checks gathered in `hintHover` and its
fallback in `aliasHover`. -/
theorem provideHover_eq {σ C H : Type} (hintDataManager : HintDataManager σ C H) (st : σ)
    (document : TextDocument) (position : Position) :
    provideHover hintDataManager st document position =
      if (jsMatch (getTextAtCursor document position) (RegExp.literal "\\w")).isNone then
        .ok (none, st)
      else if (hasTextComment (getTextBeforeCursor document position)).isSome then
        .ok (none, st)
      else
        match hintHover hintDataManager (hintDataManager.init st document.languageId)
            (document.getText (document.getWordRangeAtPosition position))
            (getTextBeforeCursor document position) with
        | some item => .ok (some (.hint item), hintDataManager.init st document.languageId)
        | none =>
            match getAliasValue document
                (document.getText (document.getWordRangeAtPosition position)) with
            | .error e => .error e
            | .ok aliasValue =>
                .ok (aliasHover aliasValue, hintDataManager.init st document.languageId) := by
  unfold provideHover
  by_cases h1 : (jsMatch (getTextAtCursor document position) (RegExp.literal "\\w")).isNone = true
  · simp only [h1, if_true]
  · by_cases h2 : (hasTextComment (getTextBeforeCursor document position)).isSome = true
    · simp only [h1, h2, if_true, if_false]
    · simp only [h1, h2, if_false]
      exact hover_fallback_eq _ _ _

/-- A hover request that passes both checks: the result is the hover of the hint
data when the lookup gives one, and the fallback on the alias value otherwise. -/
theorem provideHover_of_checks {σ C H : Type} (hintDataManager : HintDataManager σ C H)
    (st : σ) (document : TextDocument) (position : Position)
    (hchar : ∃ c ∈ (getTextAtCursor document position).data, isWordChar c = true)
    (hno : ¬ "//".data <:+: (getTextBeforeCursor document position).data) :
    ∃ aliasValue,
      getAliasValue document (document.getText (document.getWordRangeAtPosition position)) =
        .ok aliasValue ∧
      provideHover hintDataManager st document position =
        .ok (match hintHover hintDataManager (hintDataManager.init st document.languageId)
              (document.getText (document.getWordRangeAtPosition position))
              (getTextBeforeCursor document position) with
          | some item => some (.hint item)
          | none => aliasHover aliasValue,
          hintDataManager.init st document.languageId) := by
  obtain ⟨r, hr⟩ := getAliasValue_ok document
    (document.getText (document.getWordRangeAtPosition position))
  refine ⟨r, hr, ?_⟩
  have h1 : (jsMatch (getTextAtCursor document position) (RegExp.literal "\\w")).isNone =
      false := by
    have := (wordCheck_iff _).mpr hchar
    cases h : jsMatch (getTextAtCursor document position) (RegExp.literal "\\w") with
    | none => rw [h] at this; exact absurd this (by decide)
    | some m => rfl
  have h2 : (hasTextComment (getTextBeforeCursor document position)).isSome = false :=
    isSome_eq_false_of_not _ fun hc => hno ((hasTextComment_iff _).mp hc)
  rw [provideHover_eq, h1, h2, hr]
  simp only [Bool.false_eq_true, if_false]
  cases hintHover hintDataManager (hintDataManager.init st document.languageId)
    (document.getText (document.getWordRangeAtPosition position))
    (getTextBeforeCursor document position) <;> rfl

/-- The three checks of the hover provider give the lookup that belongs to the tag of
the text. -/
theorem hintHover_eq_hintHoverFor {σ C H : Type} (hintDataManager : HintDataManager σ C H)
    (st : σ) (word text : String) (hno : (hasTextComment text).isSome = false) :
    hintHover hintDataManager st word text =
      hintHoverFor hintDataManager st word (completionContext text) := by
  have hca := condition_action_exclusive text
  have hnn := aliasName_aliasContent_exclusive text
  have e1 := condition_head text
  have e2 := action_head text
  have e4 := aliasContent_head text
  unfold hintHover completionContext
  rw [hno]
  cases h1 : (isTextInCondition text).isSome <;> cases h2 : (isTextInAction text).isSome <;>
    cases h3 : (isTextInAliasName text).isSome <;>
    cases h4 : (isTextInAliasContent text).isSome <;>
    cases h5 : (isTextAtLineStart text).isSome <;>
    simp only [h1, h2, h3, h4, Bool.false_eq_true, forall_true_left, false_implies,
      imp_false, not_true_eq_false, if_true, if_false, hintHoverFor] at hca hnn e1 e2 e4 ⊢ <;>
    first
    | exact absurd (e1.symm.trans e4) (by decide)
    | exact absurd (e2.symm.trans e4) (by decide)

/-- At most one of the three checks of the hover provider holds. -/
theorem hover_checks_count_le_one (text : String) :
    [(isTextInCondition text).isSome, (isTextInAction text).isSome,
      (isTextInAliasContent text).isSome].count true ≤ 1 := by
  have hca := condition_action_exclusive text
  have e1 := condition_head text
  have e2 := action_head text
  have e4 := aliasContent_head text
  cases h1 : (isTextInCondition text).isSome <;> cases h2 : (isTextInAction text).isSome <;>
    cases h4 : (isTextInAliasContent text).isSome <;>
    simp only [h1, h2, h4, Bool.false_eq_true, forall_true_left, false_implies,
      imp_false, not_true_eq_false] at hca e1 e2 e4 <;>
    first
    | decide
    | exact absurd (e1.symm.trans e4) (by decide)
    | exact absurd (e2.symm.trans e4) (by decide)

/-! ## The claims on the providers -/

/-- C14 (amended): in the contexts `Condition`, `Action` and `AliasContent` the
completion provider chooses by `isTextPossibleKeyword` on the word under the cursor:
a word that looks like a keyword yields the condition keywords, the action keywords
and all keywords respectively; a word that does not yields the item list in
`Condition` and `AliasContent`, and nothing in `Action`. -/
theorem completion_chosen_by_keyword_test {σ C H : Type}
    (hintDataManager : HintDataManager σ C H) (st : σ) (document : TextDocument)
    (position : Position) :
    (classifySpec (getTextBeforeCursor document position) = .Condition →
      provideCompletionItems hintDataManager st document position =
        (if (isTextPossibleKeyword
              (document.getText (document.getWordRangeAtPosition position))).isSome then
            hintDataManager.getCompletionConditionKeywords
              (hintDataManager.init st document.languageId)
          else hintDataManager.getCompletionItems (hintDataManager.init st document.languageId),
          hintDataManager.init st document.languageId)) ∧
    (classifySpec (getTextBeforeCursor document position) = .Action →
      provideCompletionItems hintDataManager st document position =
        (if (isTextPossibleKeyword
              (document.getText (document.getWordRangeAtPosition position))).isSome then
            hintDataManager.getCompletionActionKeywords
              (hintDataManager.init st document.languageId)
          else none,
          hintDataManager.init st document.languageId)) ∧
    (classifySpec (getTextBeforeCursor document position) = .AliasContent →
      provideCompletionItems hintDataManager st document position =
        (if (isTextPossibleKeyword
              (document.getText (document.getWordRangeAtPosition position))).isSome then
            hintDataManager.getCompletionAllKeywords
              (hintDataManager.init st document.languageId)
          else hintDataManager.getCompletionItems (hintDataManager.init st document.languageId),
          hintDataManager.init st document.languageId)) := by
  have hno : ∀ tag, tag ≠ ContextTag.None →
      classifySpec (getTextBeforeCursor document position) = tag →
      (hasTextComment (getTextBeforeCursor document position)).isSome = false := by
    intro tag htag h
    cases hc : (hasTextComment (getTextBeforeCursor document position)).isSome
    · rfl
    · exfalso
      apply htag
      rw [← h]
      simp [classifySpec, hc]
  refine ⟨fun h => ?_, fun h => ?_, fun h => ?_⟩
  · rw [provideCompletionItems_eq, hno _ (by decide) h, completionContext_eq_classifySpec, h]
    rfl
  · rw [provideCompletionItems_eq, hno _ (by decide) h, completionContext_eq_classifySpec, h]
    rfl
  · rw [provideCompletionItems_eq, hno _ (by decide) h, completionContext_eq_classifySpec, h]
    rfl

/-- The witness of C14 (amended): behind `ItemDisplay[CLVL]: ` the word `RED` yields
the action keywords. -/
theorem completion_chosen_by_keyword_test_witness :
    classifySpec (getTextBeforeCursor
        (oneLineDocument "ItemDisplay[CLVL]: RED" (some ⟨⟨0, 19⟩, ⟨0, 22⟩⟩)) ⟨0, 22⟩) =
        .Action ∧
      provideCompletionItems sampleHints ""
        (oneLineDocument "ItemDisplay[CLVL]: RED" (some ⟨⟨0, 19⟩, ⟨0, 22⟩⟩)) ⟨0, 22⟩ =
        (some "action keywords", "pd2") :=
  ⟨by decide,
    ((completion_chosen_by_keyword_test sampleHints ""
      (oneLineDocument "ItemDisplay[CLVL]: RED" (some ⟨⟨0, 19⟩, ⟨0, 22⟩⟩)) ⟨0, 22⟩).2.1
      (by decide)).trans (by decide)⟩

/-- C14 as stated fails: behind `ItemDisplay[CLVL]: ` the context is `Action`, the
word `red` does not look like a keyword, the hint data have an item list, and the
provider returns nothing. -/
theorem completion_action_items_counterexample :
    classifySpec (getTextBeforeCursor
        (oneLineDocument "ItemDisplay[CLVL]: red" (some ⟨⟨0, 19⟩, ⟨0, 22⟩⟩)) ⟨0, 22⟩) =
        .Action ∧
      (oneLineDocument "ItemDisplay[CLVL]: red" (some ⟨⟨0, 19⟩, ⟨0, 22⟩⟩)).getText
        (some ⟨⟨0, 19⟩, ⟨0, 22⟩⟩) = "red" ∧
      (isTextPossibleKeyword "red").isSome = false ∧
      sampleHints.getCompletionItems "pd2" = some "items" ∧
      provideCompletionItems sampleHints ""
        (oneLineDocument "ItemDisplay[CLVL]: red" (some ⟨⟨0, 19⟩, ⟨0, 22⟩⟩)) ⟨0, 22⟩ =
        (none, "pd2") := by
  decide

/-- C17: for a text in front of the cursor without `//`, the completion provider
returns nothing in the context `AliasName`, the line types in the context
`LineStart` whatever the word is, and nothing when the tag is `None`. -/
theorem completion_without_keyword_test {σ C H : Type}
    (hintDataManager : HintDataManager σ C H) (st : σ) (document : TextDocument)
    (position : Position)
    (hno : ¬ "//".data <:+: (getTextBeforeCursor document position).data) :
    (classifySpec (getTextBeforeCursor document position) = .AliasName →
      provideCompletionItems hintDataManager st document position =
        (none, hintDataManager.init st document.languageId)) ∧
    (classifySpec (getTextBeforeCursor document position) = .LineStart →
      provideCompletionItems hintDataManager st document position =
        (hintDataManager.getCompletionLineTypes (hintDataManager.init st document.languageId),
          hintDataManager.init st document.languageId)) ∧
    (classifySpec (getTextBeforeCursor document position) = .None →
      provideCompletionItems hintDataManager st document position =
        (none, hintDataManager.init st document.languageId)) := by
  have hc : (hasTextComment (getTextBeforeCursor document position)).isSome = false :=
    isSome_eq_false_of_not _ fun h => hno ((hasTextComment_iff _).mp h)
  refine ⟨fun h => ?_, fun h => ?_, fun h => ?_⟩
  · rw [provideCompletionItems_eq, hc, completionContext_eq_classifySpec, h]
    rfl
  · rw [provideCompletionItems_eq, hc, completionContext_eq_classifySpec, h]
    rfl
  · rw [provideCompletionItems_eq, hc, completionContext_eq_classifySpec, h]
    rfl

/-- The witness of C17: at the start of a line, behind `Item`, the provider returns
the line types. -/
theorem completion_without_keyword_test_witness :
    ¬ "//".data <:+:
        (getTextBeforeCursor (oneLineDocument "Item" (some ⟨⟨0, 0⟩, ⟨0, 4⟩⟩)) ⟨0, 4⟩).data ∧
      classifySpec (getTextBeforeCursor (oneLineDocument "Item" (some ⟨⟨0, 0⟩, ⟨0, 4⟩⟩))
        ⟨0, 4⟩) = .LineStart ∧
      provideCompletionItems sampleHints "" (oneLineDocument "Item" (some ⟨⟨0, 0⟩, ⟨0, 4⟩⟩))
        ⟨0, 4⟩ = (some "line types", "pd2") :=
  ⟨by decide, by decide,
    ((completion_without_keyword_test sampleHints ""
      (oneLineDocument "Item" (some ⟨⟨0, 0⟩, ⟨0, 4⟩⟩)) ⟨0, 4⟩ (by decide)).2.1
      (by decide)).trans (by decide)⟩

theorem provideHover_of_comment {σ C H : Type} (hintDataManager : HintDataManager σ C H)
    (st : σ) (document : TextDocument) (position : Position)
    (h : "//".data <:+: (getTextBeforeCursor document position).data) :
    provideHover hintDataManager st document position = .ok (none, st) := by
  have hc := (hasTextComment_iff _).mpr h
  rw [provideHover_eq, hc]
  by_cases h1 : (jsMatch (getTextAtCursor document position) (RegExp.literal "\\w")).isNone = true
  · simp only [h1, if_true]
  · simp only [h1, if_true, if_false, Bool.false_eq_true]

/-- Over a text without a word character the hover provider returns nothing and
leaves the hint data alone. -/
theorem provideHover_off_word {σ C H : Type} (hintDataManager : HintDataManager σ C H)
    (st : σ) (document : TextDocument) (position : Position)
    (h : ∀ c ∈ (getTextAtCursor document position).data, isWordChar c = false) :
    provideHover hintDataManager st document position = .ok (none, st) := by
  have h1 : (jsMatch (getTextAtCursor document position) (RegExp.literal "\\w")).isNone =
      true := by
    cases hm : jsMatch (getTextAtCursor document position) (RegExp.literal "\\w") with
    | none => rfl
    | some m =>
        exfalso
        have hs : (jsMatch (getTextAtCursor document position)
            (RegExp.literal "\\w")).isSome = true := by rw [hm]; rfl
        obtain ⟨c, hc, hw⟩ := (wordCheck_iff _).mp hs
        rw [h c hc] at hw
        exact absurd hw (by decide)
  rw [provideHover_eq, h1]
  rfl

/-- C15 (amended): the hover result is a function of the context tag, of whether the
text in front of the cursor contains `//`, of the word, of the state of the hint data
after `init`, and of the alias value of the word in the document: two runs that agree
on these, each over a word character, give the same hover. -/
theorem hover_function_of_inputs {σ C H : Type} (hintDataManager : HintDataManager σ C H)
    (st1 st2 : σ) (d1 d2 : TextDocument) (p1 p2 : Position)
    (hchar1 : ∃ c ∈ (getTextAtCursor d1 p1).data, isWordChar c = true)
    (hchar2 : ∃ c ∈ (getTextAtCursor d2 p2).data, isWordChar c = true)
    (hcomment : "//".data <:+: (getTextBeforeCursor d1 p1).data ↔
      "//".data <:+: (getTextBeforeCursor d2 p2).data)
    (htag : classifySpec (getTextBeforeCursor d1 p1) = classifySpec (getTextBeforeCursor d2 p2))
    (hword : d1.getText (d1.getWordRangeAtPosition p1) =
      d2.getText (d2.getWordRangeAtPosition p2))
    (hst : hintDataManager.init st1 d1.languageId = hintDataManager.init st2 d2.languageId)
    (halias : getAliasValue d1 (d1.getText (d1.getWordRangeAtPosition p1)) =
      getAliasValue d2 (d2.getText (d2.getWordRangeAtPosition p2))) :
    (provideHover hintDataManager st1 d1 p1).map Prod.fst =
      (provideHover hintDataManager st2 d2 p2).map Prod.fst := by
  by_cases hc : "//".data <:+: (getTextBeforeCursor d1 p1).data
  · rw [provideHover_of_comment _ _ _ _ hc, provideHover_of_comment _ _ _ _ (hcomment.mp hc)]
    rfl
  · have hc2 : ¬ "//".data <:+: (getTextBeforeCursor d2 p2).data := fun h => hc (hcomment.mpr h)
    obtain ⟨r1, hr1, e1⟩ := provideHover_of_checks hintDataManager st1 d1 p1 hchar1 hc
    obtain ⟨r2, hr2, e2⟩ := provideHover_of_checks hintDataManager st2 d2 p2 hchar2 hc2
    have hn1 : (hasTextComment (getTextBeforeCursor d1 p1)).isSome = false :=
      isSome_eq_false_of_not _ fun h => hc ((hasTextComment_iff _).mp h)
    have hn2 : (hasTextComment (getTextBeforeCursor d2 p2)).isSome = false :=
      isSome_eq_false_of_not _ fun h => hc2 ((hasTextComment_iff _).mp h)
    have hr : r1 = r2 := by
      rw [hr1, hr2] at halias
      exact Except.ok.inj halias
    rw [e1, e2, hintHover_eq_hintHoverFor _ _ _ _ hn1, hintHover_eq_hintHoverFor _ _ _ _ hn2,
      completionContext_eq_classifySpec, completionContext_eq_classifySpec, htag, hword, hst, hr]

/-- The witness of C15 (amended): two documents that differ in the comment of the
binding line and in the action give the same hover over `FOO`. -/
theorem hover_function_of_inputs_witness :
    provideHover sampleHints ""
        (linesDocument ["Alias[FOO]: one", "ItemDisplay[FOO]: RED"] (some ⟨⟨1, 12⟩, ⟨1, 15⟩⟩))
        ⟨1, 13⟩ = .ok (some (.alias "one"), "pd2") ∧
      (provideHover sampleHints ""
        (linesDocument ["Alias[FOO]: one", "ItemDisplay[FOO]: RED"] (some ⟨⟨1, 12⟩, ⟨1, 15⟩⟩))
        ⟨1, 13⟩).map Prod.fst =
      (provideHover sampleHints "x"
        (linesDocument ["Alias[FOO]: one // c", "ItemDisplay[FOO]: BLUE"]
          (some ⟨⟨1, 12⟩, ⟨1, 15⟩⟩)) ⟨1, 14⟩).map Prod.fst :=
  ⟨by decide,
    hover_function_of_inputs sampleHints "" "x"
      (linesDocument ["Alias[FOO]: one", "ItemDisplay[FOO]: RED"] (some ⟨⟨1, 12⟩, ⟨1, 15⟩⟩))
      (linesDocument ["Alias[FOO]: one // c", "ItemDisplay[FOO]: BLUE"]
        (some ⟨⟨1, 12⟩, ⟨1, 15⟩⟩))
      ⟨1, 13⟩ ⟨1, 14⟩ ⟨'O', by decide, by decide⟩ ⟨'O', by decide, by decide⟩
      ⟨fun h => absurd h (by decide), fun h => absurd h (by decide)⟩
      (by decide) (by decide) (by decide) (by decide)⟩

/-- C15 as stated fails.  Two runs with the same tag `Condition`, the same word
`FOO`, the same hint data and a word character under the cursor give different
hovers, because the documents bind `FOO` to different values; and two runs with the
same tag `None`, word, hint data and alias value give different hovers, because one
text in front of the cursor contains `//` and the other does not. -/
theorem hover_depends_on_document_counterexample :
    (classifySpec (getTextBeforeCursor (linesDocument
        ["Alias[FOO]: one", "ItemDisplay[FOO]: RED"] (some ⟨⟨1, 12⟩, ⟨1, 15⟩⟩)) ⟨1, 13⟩) =
        .Condition ∧
      classifySpec (getTextBeforeCursor (linesDocument
        ["Alias[FOO]: two", "ItemDisplay[FOO]: RED"] (some ⟨⟨1, 12⟩, ⟨1, 15⟩⟩)) ⟨1, 13⟩) =
        .Condition ∧
      provideHover sampleHints "" (linesDocument
        ["Alias[FOO]: one", "ItemDisplay[FOO]: RED"] (some ⟨⟨1, 12⟩, ⟨1, 15⟩⟩)) ⟨1, 13⟩ =
        .ok (some (.alias "one"), "pd2") ∧
      provideHover sampleHints "" (linesDocument
        ["Alias[FOO]: two", "ItemDisplay[FOO]: RED"] (some ⟨⟨1, 12⟩, ⟨1, 15⟩⟩)) ⟨1, 13⟩ =
        .ok (some (.alias "two"), "pd2")) ∧
    (classifySpec (getTextBeforeCursor (linesDocument
        ["Alias[FOO]: one", "see FOO"] (some ⟨⟨1, 4⟩, ⟨1, 7⟩⟩)) ⟨1, 5⟩) = .None ∧
      classifySpec (getTextBeforeCursor (linesDocument
        ["Alias[FOO]: one", "// FOO"] (some ⟨⟨1, 3⟩, ⟨1, 6⟩⟩)) ⟨1, 4⟩) = .None ∧
      provideHover sampleHints "" (linesDocument
        ["Alias[FOO]: one", "see FOO"] (some ⟨⟨1, 4⟩, ⟨1, 7⟩⟩)) ⟨1, 5⟩ =
        .ok (some (.alias "one"), "pd2") ∧
      provideHover sampleHints "pd2" (linesDocument
        ["Alias[FOO]: one", "// FOO"] (some ⟨⟨1, 3⟩, ⟨1, 6⟩⟩)) ⟨1, 4⟩ =
        .ok (none, "pd2")) := by
  decide

/-- C16 fails on the code: in the line `ItemDisplay[MY_ALIAS]: RED` the character at
column 14 is `_`, neither a letter nor a digit, and the hover provider does not
return nothing there: it goes on to the value of the alias `MY_ALIAS`. -/
theorem hover_over_underscore :
    getTextAtCursor (linesDocument ["Alias[MY_ALIAS]: CLVL>5", "ItemDisplay[MY_ALIAS]: RED"]
        (some ⟨⟨1, 12⟩, ⟨1, 20⟩⟩)) ⟨1, 14⟩ = "_" ∧
      isAsciiLetter '_' = false ∧ isAsciiDigit '_' = false ∧ isWordChar '_' = true ∧
      provideHover sampleHints ""
        (linesDocument ["Alias[MY_ALIAS]: CLVL>5", "ItemDisplay[MY_ALIAS]: RED"]
          (some ⟨⟨1, 12⟩, ⟨1, 20⟩⟩)) ⟨1, 14⟩ = .ok (some (.alias "CLVL>5"), "pd2") := by
  decide

/-- C18: for a hover request over a word character and a text in front of the cursor
without `//`, the three checks of the provider give the lookup of the context: the
condition hover of the word in `Condition`, the action hover in `Action`, the
condition hover or else the action hover in `AliasContent`, and none in `AliasName`,
`LineStart` and `None`; at most one of the three checks holds, so that none of them
overwrites another; and the provider hands on the lookup of the context when it
gives a hover. -/
theorem hover_lookup_by_context {σ C H : Type} (hintDataManager : HintDataManager σ C H)
    (st : σ) (document : TextDocument) (position : Position)
    (hchar : ∃ c ∈ (getTextAtCursor document position).data, isWordChar c = true)
    (hno : ¬ "//".data <:+: (getTextBeforeCursor document position).data) :
    (classifySpec (getTextBeforeCursor document position) = .Condition →
      hintHover hintDataManager (hintDataManager.init st document.languageId)
          (document.getText (document.getWordRangeAtPosition position))
          (getTextBeforeCursor document position) =
        hintDataManager.getConditionHoverItem (hintDataManager.init st document.languageId)
          (document.getText (document.getWordRangeAtPosition position))) ∧
    (classifySpec (getTextBeforeCursor document position) = .Action →
      hintHover hintDataManager (hintDataManager.init st document.languageId)
          (document.getText (document.getWordRangeAtPosition position))
          (getTextBeforeCursor document position) =
        hintDataManager.getActionHoverItem (hintDataManager.init st document.languageId)
          (document.getText (document.getWordRangeAtPosition position))) ∧
    (classifySpec (getTextBeforeCursor document position) = .AliasContent →
      hintHover hintDataManager (hintDataManager.init st document.languageId)
          (document.getText (document.getWordRangeAtPosition position))
          (getTextBeforeCursor document position) =
        (hintDataManager.getConditionHoverItem (hintDataManager.init st document.languageId)
          (document.getText (document.getWordRangeAtPosition position))).or
        (hintDataManager.getActionHoverItem (hintDataManager.init st document.languageId)
          (document.getText (document.getWordRangeAtPosition position)))) ∧
    (classifySpec (getTextBeforeCursor document position) = .AliasName ∨
        classifySpec (getTextBeforeCursor document position) = .LineStart ∨
        classifySpec (getTextBeforeCursor document position) = .None →
      hintHover hintDataManager (hintDataManager.init st document.languageId)
          (document.getText (document.getWordRangeAtPosition position))
          (getTextBeforeCursor document position) = none) ∧
    [(isTextInCondition (getTextBeforeCursor document position)).isSome,
      (isTextInAction (getTextBeforeCursor document position)).isSome,
      (isTextInAliasContent (getTextBeforeCursor document position)).isSome].count true ≤ 1 ∧
    (∀ item,
      hintHover hintDataManager (hintDataManager.init st document.languageId)
          (document.getText (document.getWordRangeAtPosition position))
          (getTextBeforeCursor document position) = some item →
      provideHover hintDataManager st document position =
        .ok (some (.hint item), hintDataManager.init st document.languageId)) := by
  have hn : (hasTextComment (getTextBeforeCursor document position)).isSome = false :=
    isSome_eq_false_of_not _ fun h => hno ((hasTextComment_iff _).mp h)
  have heq := hintHover_eq_hintHoverFor hintDataManager
    (hintDataManager.init st document.languageId)
    (document.getText (document.getWordRangeAtPosition position))
    (getTextBeforeCursor document position) hn
  rw [completionContext_eq_classifySpec] at heq
  refine ⟨fun h => ?_, fun h => ?_, fun h => ?_, fun h => ?_,
    hover_checks_count_le_one _, fun item h => ?_⟩
  · rw [heq, h]; rfl
  · rw [heq, h]; rfl
  · rw [heq, h]; rfl
  · rw [heq]
    rcases h with h | h | h <;> rw [h] <;> rfl
  · obtain ⟨r, -, e⟩ := provideHover_of_checks hintDataManager st document position hchar hno
    rw [e, h]

/-- The witness of C18: over `CLVL` in `ItemDisplay[CLVL]: RED` the provider returns
the condition hover of `CLVL`. -/
theorem hover_lookup_by_context_witness :
    (∃ c ∈ (getTextAtCursor (oneLineDocument "ItemDisplay[CLVL]: RED"
        (some ⟨⟨0, 12⟩, ⟨0, 16⟩⟩)) ⟨0, 13⟩).data, isWordChar c = true) ∧
      classifySpec (getTextBeforeCursor (oneLineDocument "ItemDisplay[CLVL]: RED"
        (some ⟨⟨0, 12⟩, ⟨0, 16⟩⟩)) ⟨0, 13⟩) = .Condition ∧
      provideHover sampleHints "" (oneLineDocument "ItemDisplay[CLVL]: RED"
        (some ⟨⟨0, 12⟩, ⟨0, 16⟩⟩)) ⟨0, 13⟩ = .ok (some (.hint "condition CLVL"), "pd2") :=
  have h := hover_lookup_by_context sampleHints ""
    (oneLineDocument "ItemDisplay[CLVL]: RED" (some ⟨⟨0, 12⟩, ⟨0, 16⟩⟩)) ⟨0, 13⟩
    ⟨'L', by decide, by decide⟩ (by decide)
  ⟨⟨'L', by decide, by decide⟩, by decide,
    h.2.2.2.2.2 "condition CLVL" ((h.1 (by decide)).trans (by decide))⟩

/-- C19: for a hover request over a word character and a text in front of the cursor
without `//`: when the lookup of the context gives a hover, that hover is the result,
whatever the alias bindings of the document are; otherwise `getAliasValue` on the
word does not throw, and the result is a hover that carries its value when the value
is present and not empty, and nothing when the value is absent or empty. -/
theorem hover_hint_before_alias {σ C H : Type} (hintDataManager : HintDataManager σ C H)
    (st : σ) (document : TextDocument) (position : Position)
    (hchar : ∃ c ∈ (getTextAtCursor document position).data, isWordChar c = true)
    (hno : ¬ "//".data <:+: (getTextBeforeCursor document position).data) :
    (∀ item,
      hintHoverFor hintDataManager (hintDataManager.init st document.languageId)
          (document.getText (document.getWordRangeAtPosition position))
          (classifySpec (getTextBeforeCursor document position)) = some item →
      provideHover hintDataManager st document position =
        .ok (some (.hint item), hintDataManager.init st document.languageId)) ∧
    (hintHoverFor hintDataManager (hintDataManager.init st document.languageId)
          (document.getText (document.getWordRangeAtPosition position))
          (classifySpec (getTextBeforeCursor document position)) = none →
      (∃ aliasValue, getAliasValue document
        (document.getText (document.getWordRangeAtPosition position)) = .ok aliasValue) ∧
      (∀ value, getAliasValue document
          (document.getText (document.getWordRangeAtPosition position)) = .ok (some value) →
        value ≠ "" →
        provideHover hintDataManager st document position =
          .ok (some (.alias value), hintDataManager.init st document.languageId)) ∧
      (getAliasValue document
          (document.getText (document.getWordRangeAtPosition position)) = .ok (some "") →
        provideHover hintDataManager st document position =
          .ok (none, hintDataManager.init st document.languageId)) ∧
      (getAliasValue document
          (document.getText (document.getWordRangeAtPosition position)) = .ok none →
        provideHover hintDataManager st document position =
          .ok (none, hintDataManager.init st document.languageId))) := by
  have hn : (hasTextComment (getTextBeforeCursor document position)).isSome = false :=
    isSome_eq_false_of_not _ fun h => hno ((hasTextComment_iff _).mp h)
  have heq := hintHover_eq_hintHoverFor hintDataManager
    (hintDataManager.init st document.languageId)
    (document.getText (document.getWordRangeAtPosition position))
    (getTextBeforeCursor document position) hn
  rw [completionContext_eq_classifySpec] at heq
  obtain ⟨r, hr, e⟩ := provideHover_of_checks hintDataManager st document position hchar hno
  rw [heq] at e
  refine ⟨fun item h => ?_, fun h => ⟨⟨r, hr⟩, fun value hv hne => ?_, fun hv => ?_, fun hv => ?_⟩⟩
  · rw [e, h]
  · rw [hr] at hv
    have : r = some value := Except.ok.inj hv
    rw [e, h, this]
    simp [aliasHover, hne]
  · rw [hr] at hv
    have : r = some "" := Except.ok.inj hv
    rw [e, h, this]
    rfl
  · rw [hr] at hv
    have : r = none := Except.ok.inj hv
    rw [e, h, this]
    rfl

/-- The witness of C19: over `RED` the action hover of the hint data is returned
although the document binds `RED` as an alias; over `FOO`, which the hint data do not
know, the hover carries the alias value. -/
theorem hover_hint_before_alias_witness :
    getAliasValue (linesDocument ["Alias[RED]: crimson", "ItemDisplay[FOO]: RED"]
        (some ⟨⟨1, 18⟩, ⟨1, 21⟩⟩)) "RED" = .ok (some "crimson") ∧
      provideHover sampleHints ""
        (linesDocument ["Alias[RED]: crimson", "ItemDisplay[FOO]: RED"]
          (some ⟨⟨1, 18⟩, ⟨1, 21⟩⟩)) ⟨1, 19⟩ = .ok (some (.hint "action RED"), "pd2") ∧
      provideHover sampleHints ""
        (linesDocument ["Alias[FOO]: CLVL>5", "ItemDisplay[FOO]: RED"]
          (some ⟨⟨1, 12⟩, ⟨1, 15⟩⟩)) ⟨1, 13⟩ = .ok (some (.alias "CLVL>5"), "pd2") :=
  ⟨by decide,
    (hover_hint_before_alias sampleHints ""
      (linesDocument ["Alias[RED]: crimson", "ItemDisplay[FOO]: RED"] (some ⟨⟨1, 18⟩, ⟨1, 21⟩⟩))
      ⟨1, 19⟩ ⟨'E', by decide, by decide⟩ (by decide)).1 "action RED" (by decide),
    ((hover_hint_before_alias sampleHints ""
      (linesDocument ["Alias[FOO]: CLVL>5", "ItemDisplay[FOO]: RED"] (some ⟨⟨1, 12⟩, ⟨1, 15⟩⟩))
      ⟨1, 13⟩ ⟨'O', by decide, by decide⟩ (by decide)).2 (by decide)).2.1 "CLVL>5"
      (by decide) (by decide)⟩

end D2LootFilter
